import Mathlib

set_option maxRecDepth 10000

/-!
Verification of the good-news-you-missed backend (Firebase functions
index.js) and its PWA companion modules (utils.js, ai-service.js,
news-service.js) against their natural-language specification.

The JavaScript code is shallowly embedded: each JS function relevant to a
claim becomes an executable Lean definition over explicit state, JS
exceptions become Except values, JS timestamps become integers
(milliseconds), and JS objects become structures.  Firestore documents are
modelled as association lists keyed by document id.
-/

namespace GoodNews

/-! ## JS error taxonomy

The backend defines ValidationError, RateLimitError, ApiError,
DatabaseError, ResourceNotFoundError custom classes; plain Error also
occurs (utils.js).  Only the constructor identity and payload matter for
the claims. -/

inductive JsError where
  | validationError (message fieldName : String)
  | rateLimitError (message service : String) (retryAfter : Nat)
  | apiError (message service : String) (statusCode : Nat)
  | databaseError (message operation : String)
  | resourceNotFoundError (message resource : String)
  | plainError (message : String)
  deriving DecidableEq

/-- The instanceof RateLimitError test used by the backend withRetry. -/
def JsError.isRateLimit : JsError → Bool
  | .rateLimitError _ _ _ => true
  | _ => false

/-! ## SHA-256 (the crypto / crypto-js dependency of generateArticleId)

Executable SHA-256 over byte lists, words as Nat taken mod 2^32.
Both the node crypto module (index.js) and CryptoJS (utils.js) implement
exactly FIPS 180-4 SHA-256 with lowercase hex output. -/

def w32 : Nat := 4294967296

def rotr32 (n x : Nat) : Nat :=
  ((x >>> n) ||| (x <<< (32 - n))) % w32

def shaCh (x y z : Nat) : Nat :=
  (x &&& y) ^^^ ((x ^^^ 4294967295) &&& z)

def shaMaj (x y z : Nat) : Nat :=
  (x &&& y) ^^^ (x &&& z) ^^^ (y &&& z)

def bigSigma0 (x : Nat) : Nat := rotr32 2 x ^^^ rotr32 13 x ^^^ rotr32 22 x

def bigSigma1 (x : Nat) : Nat := rotr32 6 x ^^^ rotr32 11 x ^^^ rotr32 25 x

def smallSigma0 (x : Nat) : Nat := rotr32 7 x ^^^ rotr32 18 x ^^^ (x >>> 3)

def smallSigma1 (x : Nat) : Nat := rotr32 17 x ^^^ rotr32 19 x ^^^ (x >>> 10)

def shaK : List Nat :=
  [1116352408, 1899447441, 3049323471, 3921009573, 961987163,
   1508970993, 2453635748, 2870763221, 3624381080, 310598401,
   607225278, 1426881987, 1925078388, 2162078206, 2614888103,
   3248222580, 3835390401, 4022224774, 264347078, 604807628,
   770255983, 1249150122, 1555081692, 1996064986, 2554220882,
   2821834349, 2952996808, 3210313671, 3336571891, 3584528711,
   113926993, 338241895, 666307205, 773529912, 1294757372,
   1396182291, 1695183700, 1986661051, 2177026350, 2456956037,
   2730485921, 2820302411, 3259730800, 3345764771, 3516065817,
   3600352804, 4094571909, 275423344, 430227734, 506948616,
   659060556, 883997877, 958139571, 1322822218, 1537002063,
   1747873779, 1955562222, 2024104815, 2227730452, 2361852424,
   2428436474, 2756734187, 3204031479, 3329325298]

/-- Big-endian 64-bit length field of the padding. -/
def lenBytes64 (bitLen : Nat) : List Nat :=
  (List.range 8).map (fun i => (bitLen >>> (8 * (7 - i))) % 256)

/-- FIPS 180-4 padding: append 0x80, zeros to 56 mod 64, then the bit
length as 8 big-endian bytes. -/
def shaPad (msg : List Nat) : List Nat :=
  let len := msg.length
  let zeros := (64 - (len + 9) % 64) % 64
  msg ++ [0x80] ++ List.replicate zeros 0 ++ lenBytes64 (len * 8)

/-- Four big-endian bytes as one 32-bit word. -/
def bytesToWord (b0 b1 b2 b3 : Nat) : Nat :=
  ((b0 * 256 + b1) * 256 + b2) * 256 + b3

/-- The sixteen words of one 64-byte block. -/
def blockWords (block : List Nat) : List Nat :=
  (List.range 16).map (fun i =>
    bytesToWord (block.getD (4 * i) 0) (block.getD (4 * i + 1) 0)
      (block.getD (4 * i + 2) 0) (block.getD (4 * i + 3) 0))

/-- Message schedule: extend 16 words to 64. -/
def shaSchedule (ws : List Nat) : List Nat :=
  (List.range 48).foldl
    (fun acc t =>
      let i := t + 16
      acc ++ [(smallSigma1 (acc.getD (i - 2) 0) + acc.getD (i - 7) 0 +
               smallSigma0 (acc.getD (i - 15) 0) + acc.getD (i - 16) 0) % w32])
    ws

structure ShaState where
  a : Nat
  b : Nat
  c : Nat
  d : Nat
  e : Nat
  f : Nat
  g : Nat
  h : Nat
  deriving DecidableEq

def shaInit : ShaState :=
  ⟨1779033703, 3144134277, 1013904242, 2773480762,
   1359893119, 2600822924, 528734635, 1541459225⟩

def shaRound (kt wt : Nat) (s : ShaState) : ShaState :=
  let t1 := (s.h + bigSigma1 s.e + shaCh s.e s.f s.g + kt + wt) % w32
  let t2 := (bigSigma0 s.a + shaMaj s.a s.b s.c) % w32
  ⟨(t1 + t2) % w32, s.a, s.b, s.c, (s.d + t1) % w32, s.e, s.f, s.g⟩

def shaAdd (x y : ShaState) : ShaState :=
  ⟨(x.a + y.a) % w32, (x.b + y.b) % w32, (x.c + y.c) % w32, (x.d + y.d) % w32,
   (x.e + y.e) % w32, (x.f + y.f) % w32, (x.g + y.g) % w32, (x.h + y.h) % w32⟩

def processBlock (st : ShaState) (block : List Nat) : ShaState :=
  let ws := shaSchedule (blockWords block)
  let fin := (List.range 64).foldl
    (fun s t => shaRound (shaK.getD t 0) (ws.getD t 0) s) st
  shaAdd st fin

/-- Digest of a byte list as the eight 32-bit hash words. -/
def sha256Words (msg : List Nat) : List Nat :=
  let padded := shaPad msg
  let nBlocks := padded.length / 64
  let fin := (List.range nBlocks).foldl
    (fun st i => processBlock st ((padded.drop (64 * i)).take 64)) shaInit
  [fin.a, fin.b, fin.c, fin.d, fin.e, fin.f, fin.g, fin.h]

/-- Lowercase hex digit of a nibble. -/
def hexNibble (n : Nat) : Char :=
  if n < 10 then Char.ofNat (48 + n) else Char.ofNat (87 + n)

/-- Eight lowercase hex digits of a 32-bit word, most significant first. -/
def wordToHex (wd : Nat) : List Char :=
  (List.range 8).map (fun i => hexNibble ((wd >>> (4 * (7 - i))) % 16))

/-- The 64 lowercase hex characters of the SHA-256 digest. -/
def sha256HexChars (msg : List Nat) : List Char :=
  ((sha256Words msg).map wordToHex).flatten

/-- UTF-8 encoding of one code point (what both crypto backends hash for
a JS string input). -/
def utf8EncodeChar (c : Char) : List Nat :=
  let n := c.toNat
  if n < 0x80 then [n]
  else if n < 0x800 then [0xC0 + n / 64, 0x80 + n % 64]
  else if n < 0x10000 then
    [0xE0 + n / 4096, 0x80 + (n / 64) % 64, 0x80 + n % 64]
  else
    [0xF0 + n / 262144, 0x80 + (n / 4096) % 64,
     0x80 + (n / 64) % 64, 0x80 + n % 64]

def utf8Encode (s : String) : List Nat :=
  (s.data.map utf8EncodeChar).flatten

/-- Lowercase-hex SHA-256 digest of a string, truncated to its first
32 characters: the shared article-id computation of both implementations. -/
def shaHexTrunc32 (url : String) : String :=
  String.mk ((sha256HexChars (utf8Encode url)).take 32)

/-! ## generateArticleId, both implementations

index.js lines 970-980 (node crypto, throws ValidationError) and
src/lib/utils.js (CryptoJS, throws plain Error).  A JS string argument is
falsy exactly when it is empty, so in this typed embedding the throw
condition is url = "". -/

/-- Backend generateArticleId (index.js). -/
def generateArticleId (url : String) : Except JsError String :=
  if url = "" then
    .error (.validationError "Invalid URL provided for ID generation" "url")
  else
    .ok (shaHexTrunc32 url)

/-- PWA generateArticleId (src/lib/utils.js). -/
def generateArticleIdUtils (url : String) : Except JsError String :=
  if url = "" then
    .error (.plainError "Invalid URL provided for ID generation")
  else
    .ok (shaHexTrunc32 url)

/-- The character class of the regex [a-f0-9]. -/
def isLowerHexDigit (c : Char) : Bool :=
  (97 ≤ c.toNat && c.toNat ≤ 102) || (48 ≤ c.toNat && c.toNat ≤ 57)

/-! ## Association-list model of Firestore collections and JS Maps

A collection is a list of (documentId, document) pairs.  lookupA is a
get, setA is a document set (create or overwrite in place).  JS Maps and
Firestore collections have unique keys; theorems that need this assume
keysNodup. -/

def lookupA {β : Type} (k : String) (t : List (String × β)) : Option β :=
  (t.find? (fun p => p.1 = k)).map (fun p => p.2)

def setA {β : Type} (k : String) (v : β) (t : List (String × β)) :
    List (String × β) :=
  if t.any (fun p => p.1 = k) then
    t.map (fun p => if p.1 = k then (k, v) else p)
  else
    t ++ [(k, v)]

def keysNodup {β : Type} (t : List (String × β)) : Prop :=
  (t.map Prod.fst).Nodup

/-! ## JS helpers: truthiness, defaulting, substring search, sort -/

/-- Truthiness of a possibly-absent JS string: undefined and the empty
string are falsy. -/
def jsTruthyStr : Option String → Bool
  | none => false
  | some s => s ≠ ""

/-- The JS idiom (x || d) for a possibly-absent string with default. -/
def jsOrStr (o : Option String) (d : String) : String :=
  match o with
  | none => d
  | some s => if s = "" then d else s

/-- The JS idiom (x || null) for a possibly-absent string. -/
def jsOrNull (o : Option String) : Option String :=
  match o with
  | none => none
  | some s => if s = "" then none else some s

/-- A whitespace character for String.prototype.trim. -/
def jsIsSpace (c : Char) : Bool :=
  c = ' ' || c = '\t' || c = '\n' || c = '\r' || c.toNat = 11 || c.toNat = 12

/-- JS String.prototype.trim: strip leading and trailing whitespace. -/
def jsTrim (s : String) : String :=
  String.mk (((s.data.dropWhile jsIsSpace).reverse.dropWhile jsIsSpace).reverse)

/-- JS String.prototype.includes: substring containment. -/
def jsIncludes (s sub : String) : Bool :=
  (List.range (s.data.length + 1)).any
    (fun i => (s.data.drop i).take sub.data.length == sub.data)

/-- Insertion step of the sort model. -/
def insertLe {α : Type} (le : α → α → Bool) (x : α) : List α → List α
  | [] => [x]
  | y :: ys => if le x y then x :: y :: ys else y :: insertLe le x ys

/-- Stable comparison sort, modelling JS Array.prototype.sort with a
consistent comparator (the ES2019 stable-sort semantics). -/
def sortLe {α : Type} (le : α → α → Bool) : List α → List α
  | [] => []
  | x :: xs => insertLe le x (sortLe le xs)

/-! ## Platforms and per-platform share counters

CONFIG.validPlatforms plus the catch-all other bucket; the JS
sharesByPlatform object has exactly these seven keys. -/

def validPlatforms : List String :=
  ["twitter", "facebook", "email", "copy", "whatsapp", "reddit"]

/-- sanitizePlatform (index.js line 718). -/
def sanitizePlatform (platform : String) : String :=
  if validPlatforms.contains platform then platform else "other"

structure SharesMap where
  twitter : Int
  facebook : Int
  email : Int
  copy : Int
  whatsapp : Int
  reddit : Int
  other : Int
  deriving DecidableEq

def SharesMap.zero : SharesMap := ⟨0, 0, 0, 0, 0, 0, 0⟩

/-- The dynamic-key atomic increment sharesByPlatform.[p] += 1; p is
always a sanitized platform name. -/
def SharesMap.inc (m : SharesMap) (p : String) : SharesMap :=
  if p = "twitter" then { m with twitter := m.twitter + 1 }
  else if p = "facebook" then { m with facebook := m.facebook + 1 }
  else if p = "email" then { m with email := m.email + 1 }
  else if p = "copy" then { m with copy := m.copy + 1 }
  else if p = "whatsapp" then { m with whatsapp := m.whatsapp + 1 }
  else if p = "reddit" then { m with reddit := m.reddit + 1 }
  else if p = "other" then { m with other := m.other + 1 }
  else m

def SharesMap.NonNeg (m : SharesMap) : Prop :=
  0 ≤ m.twitter ∧ 0 ≤ m.facebook ∧ 0 ≤ m.email ∧ 0 ≤ m.copy ∧
  0 ≤ m.whatsapp ∧ 0 ≤ m.reddit ∧ 0 ≤ m.other

/-! ## CONFIG constants used by the claims -/

def trendingWeightViews : Int := 1
def trendingWeightSaves : Int := 2
def trendingWeightShares : Int := 3
def articleTTLMs : Int := 48 * 60 * 60 * 1000
def firestoreBatchLimit : Nat := 500
def bookmarkLimit : Nat := 30

/-! ## StoredArticle and storeArticlesScalable (C2)

index.js lines 2204-2345.  The committed per-article document as built by
the forEach body: content fields from the enriched article, engagement
fields preserved from the existing document when the id already exists,
zero-initialized otherwise.  The JS preservation reads existing.views || 0
etc; on an Int field x the JS expression (x || 0) equals x (0 || 0 is 0),
so the embedding copies the field directly. -/

structure EnrichedArticle where
  uniqueId : String
  title : String
  summary : String
  category : String
  link : String
  source : String
  publishedOriginal : Option String
  fetchedAt : String
  deriving DecidableEq

structure StoredArticle where
  uniqueId : String
  title : String
  summary : String
  category : String
  link : String
  source : String
  publishedOriginal : Option String
  id : String
  batchId : String
  publishedAt : Int
  expiresAt : Int
  isActive : Bool
  updatedAt : Int
  views : Int
  saves : Int
  shares : Int
  sharesByPlatform : SharesMap
  trendingScore : Int
  lastViewedAt : Option Int
  lastSharedAt : Option Int
  deriving DecidableEq

/-- The articleData object built for one enriched article. -/
def mkArticleData (article : EnrichedArticle) (articleId batchId : String)
    (now : Int) (existing : Option StoredArticle) : StoredArticle :=
  match existing with
  | some ex =>
    { uniqueId := article.uniqueId, title := article.title,
      summary := article.summary, category := article.category,
      link := article.link, source := article.source,
      publishedOriginal := article.publishedOriginal,
      id := articleId, batchId := batchId, publishedAt := now,
      expiresAt := now + articleTTLMs, isActive := true, updatedAt := now,
      views := ex.views, saves := ex.saves, shares := ex.shares,
      sharesByPlatform := ex.sharesByPlatform,
      trendingScore := ex.trendingScore,
      lastViewedAt := ex.lastViewedAt, lastSharedAt := ex.lastSharedAt }
  | none =>
    { uniqueId := article.uniqueId, title := article.title,
      summary := article.summary, category := article.category,
      link := article.link, source := article.source,
      publishedOriginal := article.publishedOriginal,
      id := articleId, batchId := batchId, publishedAt := now,
      expiresAt := now + articleTTLMs, isActive := true, updatedAt := now,
      views := 0, saves := 0, shares := 0,
      sharesByPlatform := SharesMap.zero, trendingScore := 0,
      lastViewedAt := none, lastSharedAt := none }

abbrev ArticleStore : Type := List (String × StoredArticle)

/-- One batch.set of the forEach body: derive the id, build articleData
against the pre-batch existence map, and write. -/
def storeUpsertStep (store : ArticleStore) (batchId : String) (now : Int)
    (st : ArticleStore) (a : EnrichedArticle) : ArticleStore :=
  match generateArticleId a.link with
  | .error _ => st
  | .ok articleId =>
    setA articleId
      (mkArticleData a articleId batchId now (lookupA articleId store)) st

/-- Serialized length of one character, in the UTF-16 code units that
JSON.stringify(...).length counts: quote and backslash escape to two
units, backspace, tab, newline, form feed and carriage return to their
two-unit short escapes, other control characters to a six-unit uXXXX
escape, astral code points to a surrogate pair, everything else to one
unit. -/
def jsonCharLen (c : Char) : Nat :=
  let n := c.toNat
  if n = 34 ∨ n = 92 then 2
  else if n = 8 ∨ n = 9 ∨ n = 10 ∨ n = 12 ∨ n = 13 then 2
  else if n < 32 then 6
  else if 65536 ≤ n then 2 else 1

/-- Serialized length of a JSON string: two quotes plus the escaped
payload. -/
def jsonStringLen (s : String) : Nat := 2 + (s.data.map jsonCharLen).sum

/-- Serialized length of one enriched article object, the shape both
classifier paths hand to storeArticlesScalable: the eight fields
uniqueId, title, summary, category, link, source, publishedOriginal,
fetchedAt in object-literal insertion order, seven separating commas and
two braces; publishedOriginal serializes to null when absent. -/
def enrichedJsonLen (a : EnrichedArticle) : Nat :=
  2 + 7 +
  (10 + 1 + jsonStringLen a.uniqueId) +
  (7 + 1 + jsonStringLen a.title) +
  (9 + 1 + jsonStringLen a.summary) +
  (10 + 1 + jsonStringLen a.category) +
  (6 + 1 + jsonStringLen a.link) +
  (8 + 1 + jsonStringLen a.source) +
  (19 + 1 + (match a.publishedOriginal with
    | none => 4
    | some s => jsonStringLen s)) +
  (11 + 1 + jsonStringLen a.fetchedAt)

/-- JSON.stringify(filteredArticles).length: two brackets plus the
comma-joined article objects. -/
def articlesJsonLen (l : List EnrichedArticle) : Nat :=
  2 + (l.map enrichedJsonLen).sum + (l.length - 1)

/-- The 900KB estimated-size bound of the payload guard. -/
def maxPayloadBytes : Nat := 900 * 1024

/-- storeArticlesScalable, restricted to the news_articles collection
writes (the latest_news summary document and the batch_metadata record go
to other collections and are irrelevant to the per-article claims).
Guards run in source order before any write: the batch-operation limit,
then the JSON.stringify payload-size estimate against 900KB, then the
generateArticleId throw for an empty link inside the articleIds map.
Existence lookups are executed against the pre-batch store, exactly as
the chunked id-in queries run before the forEach; the batched writes then
land left to right. -/
def storeArticlesScalable (store : ArticleStore)
    (filteredArticles : List EnrichedArticle) (batchId : String)
    (now : Int) : Except JsError ArticleStore :=
  if firestoreBatchLimit < 2 + filteredArticles.length then
    .error (.databaseError "exceeds Firestore batch limit" "batch_write")
  else if maxPayloadBytes < articlesJsonLen filteredArticles then
    .error (.databaseError "Article data too large" "data_size")
  else if filteredArticles.any (fun a => a.link = "") then
    .error (.validationError "Invalid URL provided for ID generation" "url")
  else
    .ok (filteredArticles.foldl (storeUpsertStep store batchId now) store)

/-! ## Engagement state machine (C1, C9)

The per-article view of the mutating operations.  The state tracks one
article's counters (none = the document does not exist) together with the
set of users whose user_bookmarks document currently lists this article:
toggleBookmark reads membership of the articleId in the calling user's
articleIds array, which per article is exactly membership of the user in
this list (FieldValue.arrayUnion appends, FieldValue.arrayRemove removes
every occurrence).

Each operation mirrors its source:
ingest is the storeArticlesScalable upsert of this article (counters
preserved when the document exists, zeroed when absent);
cleanupDelete is the retention sweep batch.delete, which touches no
user_bookmarks document;
toggleBookmark throws ResourceNotFound before any write when the article
document is missing, otherwise flips membership and applies the saves
increment of plus or minus 1 and the trendingScore increment of plus or
minus CONFIG.trendingWeights.saves in one batch;
trackView and trackShare are the atomic increments of index.js lines
3133-3141 and 3060-3075, and fail without a write when the document is
missing (update on a missing document rejects). -/

structure Counters where
  views : Int
  saves : Int
  shares : Int
  trendingScore : Int
  sharesByPlatform : SharesMap
  deriving DecidableEq

def zeroCounters : Counters := ⟨0, 0, 0, 0, SharesMap.zero⟩

structure EngState where
  article : Option Counters
  bookmarks : List String
  deriving DecidableEq

inductive EngOp where
  | ingest
  | cleanupDelete
  | toggleBookmark (userId : String)
  | trackView
  | trackShare (platform : String)
  deriving DecidableEq

def engStep (s : EngState) (op : EngOp) : EngState :=
  match op with
  | .ingest =>
    { s with article := some (match s.article with
        | some c => c
        | none => zeroCounters) }
  | .cleanupDelete => { s with article := none }
  | .toggleBookmark u =>
    match s.article with
    | none => s
    | some c =>
      if u ∈ s.bookmarks then
        { article := some { c with
            saves := c.saves - 1
            trendingScore := c.trendingScore - trendingWeightSaves }
          bookmarks := s.bookmarks.filter (fun x => x ≠ u) }
      else
        { article := some { c with
            saves := c.saves + 1
            trendingScore := c.trendingScore + trendingWeightSaves }
          bookmarks := s.bookmarks ++ [u] }
  | .trackView =>
    match s.article with
    | none => s
    | some c =>
      { s with article := some { c with
          views := c.views + 1
          trendingScore := c.trendingScore + trendingWeightViews } }
  | .trackShare p =>
    match s.article with
    | none => s
    | some c =>
      { s with article := some { c with
          shares := c.shares + 1
          sharesByPlatform := c.sharesByPlatform.inc (sanitizePlatform p)
          trendingScore := c.trendingScore + trendingWeightShares } }

def engRun (s : EngState) (ops : List EngOp) : EngState :=
  ops.foldl engStep s

/-- The empty system: the article was never ingested, nobody bookmarked. -/
def engInit : EngState := ⟨none, []⟩

/-- A freshly ingested document with all counters zero; bm is whatever
bookmark references already exist for its id. -/
def freshArticle (bm : List String) : EngState := ⟨some zeroCounters, bm⟩

/-- The engagement operations of claim C1. -/
def EngOp.isEngagement : EngOp → Bool
  | .toggleBookmark _ => true
  | .trackView => true
  | .trackShare _ => true
  | _ => false

/-! ## Shared TTL cache (C6)

getSharedCache / setSharedCache / invalidateRelatedCaches, index.js lines
853-934.  A cache entry stores the raw value (JS null is modelled as
none), the write timestamp in milliseconds, and the expiresAt field that
reads never consult.  TTLs are in minutes and may be fractional
(CONFIG.cache.immediateInvalidation = 0.1), hence rational. -/

structure CacheEntry (α : Type) where
  value : Option α
  timestamp : Int
  expiresAt : ℚ
  deriving DecidableEq

abbrev CacheStore (α : Type) : Type := List (String × CacheEntry α)

def setSharedCache {α : Type} (store : CacheStore α) (key : String)
    (value : Option α) (ttlMinutes : ℚ) (now : Int) : CacheStore α :=
  setA key ⟨value, now, (now : ℚ) + ttlMinutes * 60 * 1000⟩ store

def getSharedCache {α : Type} (store : CacheStore α) (key : String)
    (ttlMinutes : ℚ) (now : Int) : Option α :=
  match lookupA key store with
  | none => none
  | some e =>
    if ((now - e.timestamp : Int) : ℚ) < ttlMinutes * 60 * 1000 then e.value
    else none

def immediateInvalidationTTL : ℚ := 1 / 10

/-- One key of the invalidateRelatedCaches fan-out: write null with the
near-zero invalidation TTL. -/
def invalidateCacheKey {α : Type} (store : CacheStore α) (key : String)
    (now : Int) : CacheStore α :=
  setSharedCache store key none immediateInvalidationTTL now

/-! ## withRetry, both implementations (C7)

The operation is modelled attempt-indexed (attempt numbers start at 1, as
in the sources); the result pairs the JS return (ok none is the undefined
that falls out when the while loop is never entered) with the number of
operation invocations made.  Backoff sleeps have no observable effect
here and are dropped. -/

/-- Loop of the backend withRetry (index.js lines 939-968): rethrow when
attempts are exhausted or the error is an instanceof RateLimitError. -/
def jsRetryGo {α : Type} (op : Nat → Except JsError α) (maxAttempts : Nat) :
    Nat → Nat → Nat → Except JsError (Option α) × Nat
  | 0, _, count => (.ok none, count)
  | fuel + 1, attempt, count =>
    match op attempt with
    | .ok v => (.ok (some v), count + 1)
    | .error e =>
      if maxAttempts ≤ attempt || e.isRateLimit then (.error e, count + 1)
      else jsRetryGo op maxAttempts fuel (attempt + 1) (count + 1)

def withRetry {α : Type} (op : Nat → Except JsError α) (maxAttempts : Nat) :
    Except JsError (Option α) × Nat :=
  jsRetryGo op maxAttempts maxAttempts 1 0

/-- Loop of the utils.js withRetry: no rate-limit short-circuit, and an
unreachable-for-positive-maxAttempts trailing throw after the loop. -/
def utilsRetryGo {α : Type} (op : Nat → Except JsError α)
    (maxAttempts : Nat) : Nat → Nat → Nat → Except JsError (Option α) × Nat
  | 0, _, count => (.error (.plainError "Max retry attempts reached"), count)
  | fuel + 1, attempt, count =>
    match op attempt with
    | .ok v => (.ok (some v), count + 1)
    | .error e =>
      if maxAttempts ≤ attempt then (.error e, count + 1)
      else utilsRetryGo op maxAttempts fuel (attempt + 1) (count + 1)

def withRetryUtils {α : Type} (op : Nat → Except JsError α)
    (maxAttempts : Nat) : Except JsError (Option α) × Nat :=
  utilsRetryGo op maxAttempts maxAttempts 1 0

/-! ## ConcurrentRequestTracker (C8)

index.js lines 355-535.  The tracker is a JS Map from userId to an object
holding a timestamps array; lastCleanup is bookkeeping with no effect on
admission and is dropped.  trackRequest: no userId means allow; otherwise
cleanupOldRequests (drop timestamps at or past the window, drop emptied
users), create the entry if missing, count timestamps inside the trailing
window, deny when the count reaches maxConcurrentRequests, else record
the current timestamp (trimming the array if it ever exceeds 10 times the
limit). -/

def requestTimeWindowMs : Int := 30000
def maxConcurrentRequests : Nat := 5

abbrev Tracker : Type := List (String × List Int)

def cleanupOldRequests (now : Int) (t : Tracker) : Tracker :=
  (t.map (fun p => (p.1, p.2.filter (fun ts => now - requestTimeWindowMs < ts))))
    |>.filter (fun p => p.2 ≠ [])

def trackRequest (t : Tracker) (now : Int) (userId : Option String) :
    Bool × Tracker :=
  match userId with
  | none => (true, t)
  | some uid =>
    let t1 := cleanupOldRequests now t
    let t2 := if t1.any (fun p => p.1 = uid) then t1 else t1 ++ [(uid, [])]
    let ts := (lookupA uid t2).getD []
    let active := (ts.filter (fun x => now - x < requestTimeWindowMs)).length
    if maxConcurrentRequests ≤ active then (false, t2)
    else
      let ts2 := ts ++ [now]
      let ts3 :=
        if maxConcurrentRequests * 10 < ts2.length then
          ts2.drop (ts2.length - maxConcurrentRequests * 2)
        else ts2
      (true, setA uid ts3 t2)

/-- The number of the caller's recorded request timestamps inside the
trailing window. -/
def activeRequestCount (t : Tracker) (uid : String) (now : Int) : Nat :=
  (((lookupA uid t).getD []).filter
    (fun x => now - x < requestTimeWindowMs)).length

/-! ## Content classifier (C4)

filterAndEnrichArticlesWithAI and basicKeywordFilter: backend index.js
lines 1925-2228 and PWA ai-service.js.  The generative-AI call and
JSON.parse are platform boundaries: the call is modelled by its outcome
(key missing, failed after retries, or a response text) and JSON.parse of
an expected array by a parse function parameter; theorems that depend on
real-JSON behaviour take the corresponding facts about the parameter as
hypotheses.  Property-relevant JS behaviours kept: object fields can be
absent (Option), truthiness checks, last-write-wins of the Map built over
raw articles keyed by link. -/

structure RawArticle where
  title : Option String
  link : String
  source_id : Option String
  source : Option String
  description : Option String
  content : Option String
  pubDate : Option String
  publishedAt : Option String
  image_url : Option String
  deriving DecidableEq

structure EnrichedOut where
  uniqueId : String
  title : String
  summary : String
  category : String
  link : String
  source : String
  publishedOriginal : Option String
  fetchedAt : String
  deriving DecidableEq

def appCategories : List String :=
  ["SCIENCE", "TECHNOLOGY", "ENVIRONMENT", "HEALTH", "COMMUNITY",
   "ANIMALS", "INNOVATION"]

def negativeKeywords : List String :=
  ["dead", "killed", "attack", "crime", "war", "protest", "disaster",
   "tragedy", "death"]

def unsafePatternWords : List String :=
  ["violence", "hate", "sexual", "abuse", "harassment", "extremism"]

/-- isContentSafe (index.js line 727): vacuously safe on falsy input,
else no case-insensitive unsafe pattern matches. -/
def isContentSafe (text : Option String) : Bool :=
  match text with
  | none => true
  | some s =>
    if s = "" then true
    else !(unsafePatternWords.any (fun wrd => jsIncludes s.toLower wrd))

def positiveKeywords : List (String × List String) :=
  [("SCIENCE", ["discovery", "breakthrough", "research", "scientists",
                "study", "finding"]),
   ("TECHNOLOGY", ["innovation", "app", "software", "tech", "digital",
                   "robot", "AI", "artificial intelligence"]),
   ("ENVIRONMENT", ["renewable", "clean energy", "conservation",
                    "wildlife", "sustainable", "eco-friendly"]),
   ("HEALTH", ["medical", "treatment", "vaccine", "healthcare",
               "wellness", "recovery", "cure"]),
   ("COMMUNITY", ["volunteer", "donation", "charity", "community",
                  "helping", "support"]),
   ("ANIMALS", ["rescue", "animal", "pet", "wildlife", "species",
                "protection"]),
   ("INNOVATION", ["invention", "new device", "creative", "solution",
                   "patent"])]

def keywordTitlePasses (title : String) : Bool :=
  let tl := title.toLower
  let hasNegative := negativeKeywords.any (fun k => jsIncludes tl k)
  let hasPositive :=
    ((positiveKeywords.map Prod.snd).flatten).any (fun k => jsIncludes tl k)
  !hasNegative && hasPositive

def keywordCategory (title : String) : String :=
  let tl := title.toLower
  match positiveKeywords.find? (fun kv => kv.2.any (fun k => jsIncludes tl k)) with
  | some kv => kv.1
  | none => "COMMUNITY"

/-- basicKeywordFilter (index.js lines 2159-2228); now is the
fetchedAt timestamp string. -/
def basicKeywordFilter (now : String) (articles : List RawArticle) :
    List EnrichedOut :=
  ((articles.filter (fun a =>
      match a.title with
      | none => false
      | some t => if t = "" then false else keywordTitlePasses t))
    |>.map (fun a =>
      let t := (a.title.getD "")
      let category := keywordCategory t
      { uniqueId := a.link, title := t,
        summary := "A positive story about " ++ category.toLower ++ ".",
        category := category, link := a.link,
        source := jsOrStr a.source_id "Unknown",
        publishedOriginal := jsOrNull a.pubDate,
        fetchedAt := now }))
    |>.take 5

/-- An element of the JSON array the AI is asked to return; fields may be
absent in a malformed-but-parseable response. -/
structure AiItem where
  uniqueId : Option String
  title : Option String
  summary : Option String
  category : Option String
  deriving DecidableEq

/-- Backend post-validation of one AI item. -/
def aiItemValid (item : AiItem) : Bool :=
  jsTruthyStr item.uniqueId && jsTruthyStr item.title &&
  jsTruthyStr item.summary && jsTruthyStr item.category &&
  appCategories.contains (item.category.getD "") &&
  isContentSafe item.title && isContentSafe item.summary

/-- The articleDataMap get: the Map is built by a forEach keyed on link,
so a duplicated link keeps the last article. -/
def lookupLastByLink (articles : List RawArticle) (link : String) :
    Option RawArticle :=
  articles.reverse.find? (fun a => a.link = link)

/-- The final mapping joining one valid AI item back to its RawArticle. -/
def finalizeAiItem (articles : List RawArticle) (now : String)
    (item : AiItem) : EnrichedOut :=
  let uid := item.uniqueId.getD ""
  match lookupLastByLink articles uid with
  | some a =>
    { uniqueId := uid, title := item.title.getD "",
      summary := item.summary.getD "", category := item.category.getD "",
      link := uid, source := jsOrStr a.source_id "Unknown",
      publishedOriginal := jsOrNull a.pubDate, fetchedAt := now }
  | none =>
    { uniqueId := uid, title := item.title.getD "",
      summary := item.summary.getD "", category := item.category.getD "",
      link := uid, source := "Unknown", publishedOriginal := none,
      fetchedAt := now }

/-- What the AI interaction ultimately produced for this run. -/
inductive AiOutcome where
  | noApiKey
  | callFailed (e : JsError)
  | responded (text : String)
  deriving DecidableEq

/-- Backend filterAndEnrichArticlesWithAI.  parseArr models JSON.parse
composed with the Array.isArray check (none covers both a parse exception
and a parsed non-array, which share the fallback catch); an empty trimmed
response short-circuits to the fallback before parsing. -/
def filterAndEnrichArticlesWithAI (parseArr : String → Option (List AiItem))
    (now : String) (articles : List RawArticle) (outcome : AiOutcome) :
    List EnrichedOut :=
  match outcome with
  | .noApiKey => basicKeywordFilter now articles
  | .callFailed _ => basicKeywordFilter now articles
  | .responded text =>
    if jsTrim text = "" then basicKeywordFilter now articles
    else
      match parseArr text with
      | none => basicKeywordFilter now articles
      | some items =>
        (items.filter aiItemValid).map (finalizeAiItem articles now)

/-! PWA variant (ai-service.js).  Differences from the backend: its
basicKeywordFilter defaults source from source_id then source, and
publishedOriginal from pubDate then publishedAt; AI-item validation keeps
items with truthy fields and title longer than 10 with no category or
safety check; the final mapping enhances short summaries with the raw
description and attaches a positivity score; and an empty AI response is
thrown inside the retried call, so it surfaces as a failure and falls
back.  The AI path and the fallback path return differently-shaped
objects, modelled by a sum. -/

def basicKeywordFilterPwa (now : String) (articles : List RawArticle) :
    List EnrichedOut :=
  ((articles.filter (fun a =>
      match a.title with
      | none => false
      | some t => if t = "" then false else keywordTitlePasses t))
    |>.map (fun a =>
      let t := (a.title.getD "")
      let category := keywordCategory t
      { uniqueId := a.link, title := t,
        summary := "A positive story about " ++ category.toLower ++ ".",
        category := category, link := a.link,
        source := jsOrStr a.source_id (jsOrStr a.source "Unknown"),
        publishedOriginal := jsOrNull (match jsOrNull a.pubDate with
          | some s => some s
          | none => a.publishedAt),
        fetchedAt := now }))
    |>.take 5

def positiveScoreWords : List String :=
  ["breakthrough", "discovery", "help", "aid", "solution", "recovery",
   "hope", "save", "protect", "clean", "green", "positive", "good",
   "better", "improve", "success"]

def calculatePositivityScore (title summary : String) : Int :=
  let text := (title ++ " " ++ summary).toLower
  let score : Int :=
    50 + 5 * (positiveScoreWords.filter (fun wrd => jsIncludes text wrd)).length
  min 100 (max 0 score)

structure PwaEnriched where
  uniqueId : String
  title : String
  summary : String
  category : String
  link : String
  source : String
  publishedAt : Option String
  description : String
  image : Option String
  aiProcessed : Bool
  processedAt : String
  positivityScore : Int
  deriving DecidableEq

def pwaItemValid (item : AiItem) : Bool :=
  jsTruthyStr item.uniqueId && jsTruthyStr item.title &&
  jsTruthyStr item.summary && jsTruthyStr item.category &&
  decide (10 < (item.title.getD "").length)

def finalizePwaItem (articles : List RawArticle) (now : String)
    (item : AiItem) : PwaEnriched :=
  let uid := item.uniqueId.getD ""
  let summary := item.summary.getD ""
  match lookupLastByLink articles uid with
  | some a =>
    let dataDescription := jsOrStr a.description ""
    let enhancedSummary :=
      if dataDescription ≠ "" && decide (summary.length < 100) then
        summary ++ " " ++ dataDescription.take 150 ++ "..."
      else summary
    { uniqueId := uid, title := item.title.getD "",
      summary := enhancedSummary, category := item.category.getD "",
      link := uid,
      source := jsOrStr a.source_id (jsOrStr a.source "Unknown"),
      publishedAt := jsOrNull (match jsOrNull a.pubDate with
        | some s => some s
        | none => a.publishedAt),
      description := if dataDescription ≠ "" then dataDescription
        else enhancedSummary,
      image := jsOrNull a.image_url, aiProcessed := true,
      processedAt := now,
      positivityScore := calculatePositivityScore (item.title.getD "") enhancedSummary }
  | none =>
    { uniqueId := uid, title := item.title.getD "", summary := summary,
      category := item.category.getD "", link := uid, source := "Unknown",
      publishedAt := none, description := summary, image := none,
      aiProcessed := true, processedAt := now,
      positivityScore := calculatePositivityScore (item.title.getD "") summary }

def filterAndEnrichArticlesWithAIPwa
    (parseArr : String → Option (List AiItem)) (now : String)
    (rawArticles : List RawArticle) (outcome : AiOutcome) :
    Sum (List EnrichedOut) (List PwaEnriched) :=
  match outcome with
  | .noApiKey => .inl (basicKeywordFilterPwa now rawArticles)
  | .callFailed _ => .inl (basicKeywordFilterPwa now rawArticles)
  | .responded text =>
    if jsTrim text = "" then .inl (basicKeywordFilterPwa now rawArticles)
    else
      match parseArr text with
      | none => .inl (basicKeywordFilterPwa now rawArticles)
      | some items =>
        .inr ((items.filter pwaItemValid).map (finalizePwaItem rawArticles now))

/-! ## Multi-provider fetch orchestrator (C5)

fetchArticlesFromProviders (news-service.js lines 196-258).  One
provider's run is its config (name, enabled flag, priority after the
strategy adjustment) plus the outcome of fetchFromProvider for it: a
normalized article list, or a thrown error (caught and skipped by the
loop).  The function records which providers it attempted. -/

inductive FetchOutcome where
  | fetched (articles : List RawArticle)
  | failed (e : JsError)
  deriving DecidableEq

structure ProviderRun where
  name : String
  enabled : Bool
  priority : Int
  outcome : FetchOutcome
  deriving DecidableEq

def provLe (a b : ProviderRun) : Bool := decide (a.priority ≤ b.priority)

/-- Enabled providers sorted by ascending priority. -/
def activeProviders (ps : List ProviderRun) : List ProviderRun :=
  sortLe provLe (ps.filter (fun p => p.enabled))

def minArticleThreshold : Nat := 40

/-- The provider loop, accumulating articles and the names of attempted
providers; in conservative mode the loop breaks once the running total
reaches the threshold. -/
def runProvidersGo (strategy : String) :
    List ProviderRun → List RawArticle → List String →
    List RawArticle × List String
  | [], acc, inv => (acc, inv)
  | p :: rest, acc, inv =>
    let inv2 := inv ++ [p.name]
    match p.outcome with
    | .failed _ => runProvidersGo strategy rest acc inv2
    | .fetched arts =>
      let acc2 := acc ++ arts
      if strategy = "conservative" ∧ minArticleThreshold ≤ acc2.length then
        (acc2, inv2)
      else runProvidersGo strategy rest acc2 inv2

/-- deduplicateArticles: drop falsy links, keep the first occurrence of
each case-normalized link. -/
def dedupArticlesGo : List RawArticle → List String → List RawArticle
  | [], _ => []
  | a :: rest, seen =>
    if a.link = "" then dedupArticlesGo rest seen
    else if seen.contains a.link.toLower then dedupArticlesGo rest seen
    else a :: dedupArticlesGo rest (a.link.toLower :: seen)

def deduplicateArticles (articles : List RawArticle) : List RawArticle :=
  dedupArticlesGo articles []

/-- fetchArticlesFromProviders: unique articles plus the attempted
provider names. -/
def fetchArticlesFromProviders (strategy : String)
    (ps : List ProviderRun) : List RawArticle × List String :=
  let run := runProvidersGo strategy (activeProviders ps) [] []
  (deduplicateArticles run.1, run.2)

/-- Article total contributed by a list of provider runs (errors count
zero, exactly as the catch-and-continue loop accumulates). -/
def okTotal (ps : List ProviderRun) : Nat :=
  (ps.map (fun p => match p.outcome with
    | .fetched l => l.length
    | .failed _ => 0)).sum

/-! ## getUserBookmarks (C10)

index.js lines 2936-3012.  The user's articleIds array is mutated only by
toggleBookmark via FieldValue.arrayUnion (append if absent) and
arrayRemove, so insertion order is append order.  The read path takes the
first min(limit, bookmarkLimit) ids, fetches the corresponding documents
in chunks of 10 via id-in queries, and sorts the union of the snapshots
by position in the limited id list.  A snapshot returns the chunk's
documents present in the store; the query order is not relied upon by the
code (hence the explicit sort), and the embedding lists each chunk's hits
in chunk order. -/

/-- FieldValue.arrayUnion of one id. -/
def bookmarkInsert (ids : List String) (id : String) : List String :=
  if ids.contains id then ids else ids ++ [id]

def chunksAux {α : Type} (n : Nat) : Nat → List α → List (List α)
  | 0, _ => []
  | _, [] => []
  | fuel + 1, l => l.take n :: chunksAux n fuel (l.drop n)

def chunkList {α : Type} (n : Nat) (l : List α) : List (List α) :=
  chunksAux n l.length l

/-- JS Array.prototype.indexOf. -/
def jsIndexOf (l : List String) (x : String) : Int :=
  match l.findIdx? (fun y => y = x) with
  | some i => (i : Int)
  | none => -1

def getUserBookmarks (store : ArticleStore) (articleIds : List String)
    (lim : Nat) : List StoredArticle :=
  if articleIds.length = 0 then []
  else
    let limitedIds := articleIds.take (min lim bookmarkLimit)
    let chunks := chunkList 10 limitedIds
    let fetched :=
      (chunks.map (fun ch => ch.filterMap (fun i => lookupA i store))).flatten
    sortLe (fun a b => decide (jsIndexOf limitedIds a.id ≤ jsIndexOf limitedIds b.id))
      fetched

/-! ## Lemmas about the association-list store -/

theorem lookupA_cons {β : Type} (k : String) (p : String × β)
    (t : List (String × β)) :
    lookupA k (p :: t) = if p.1 = k then some p.2 else lookupA k t := by
  by_cases h : p.1 = k <;> simp [lookupA, List.find?_cons, h]

theorem lookupA_eq_none_of_not_mem {β : Type} {k : String}
    {t : List (String × β)} (h : k ∉ t.map Prod.fst) : lookupA k t = none := by
  induction t with
  | nil => rfl
  | cons p t ih =>
    simp only [List.map_cons, List.mem_cons] at h
    push_neg at h
    rw [lookupA_cons, if_neg (fun hpk => h.1 hpk.symm)]
    exact ih h.2

theorem mem_of_lookupA_some {β : Type} {k : String} {t : List (String × β)}
    {v : β} (h : lookupA k t = some v) : k ∈ t.map Prod.fst := by
  induction t with
  | nil => simp [lookupA] at h
  | cons p t ih =>
    rw [lookupA_cons] at h
    by_cases hpk : p.1 = k
    · simp [hpk]
    · rw [if_neg hpk] at h
      simp [ih h]

theorem any_key_iff {β : Type} (k : String) (t : List (String × β)) :
    t.any (fun p => p.1 = k) = true ↔ k ∈ t.map Prod.fst := by
  induction t with
  | nil => simp
  | cons p t ih =>
    simp only [List.any_cons, Bool.or_eq_true, List.map_cons, List.mem_cons, ih]
    constructor
    · rintro (h | h)
      · exact Or.inl (of_decide_eq_true h).symm
      · exact Or.inr h
    · rintro (h | h)
      · exact Or.inl (decide_eq_true h.symm)
      · exact Or.inr h

theorem lookupA_append {β : Type} (k : String) (l₁ l₂ : List (String × β)) :
    lookupA k (l₁ ++ l₂) =
      match lookupA k l₁ with
      | some v => some v
      | none => lookupA k l₂ := by
  induction l₁ with
  | nil => rfl
  | cons p t ih =>
    rw [List.cons_append, lookupA_cons, lookupA_cons]
    by_cases h : p.1 = k
    · simp [h]
    · simp only [if_neg h]
      exact ih

theorem lookupA_replace_self {β : Type} {k : String} (v : β)
    {t : List (String × β)} (h : t.any (fun p => p.1 = k) = true) :
    lookupA k (t.map (fun p => if p.1 = k then (k, v) else p)) = some v := by
  induction t with
  | nil => simp at h
  | cons p t ih =>
    simp only [List.any_cons, Bool.or_eq_true] at h
    by_cases hpk : p.1 = k
    · simp only [List.map_cons, if_pos hpk]
      rw [lookupA_cons, if_pos rfl]
    · rcases h with h | h
      · exact absurd (of_decide_eq_true h) hpk
      · simp only [List.map_cons, if_neg hpk]
        rw [lookupA_cons, if_neg hpk]
        exact ih h

theorem lookupA_replace_ne {β : Type} {k k' : String} (v : β)
    (t : List (String × β)) (h : k' ≠ k) :
    lookupA k' (t.map (fun p => if p.1 = k then (k, v) else p)) =
      lookupA k' t := by
  induction t with
  | nil => rfl
  | cons p t ih =>
    by_cases hpk : p.1 = k
    · simp only [List.map_cons, if_pos hpk]
      rw [lookupA_cons, lookupA_cons, if_neg (fun hk => h hk.symm),
        if_neg (fun hk => h (hk.symm.trans hpk))]
      exact ih
    · simp only [List.map_cons, if_neg hpk]
      rw [lookupA_cons, lookupA_cons]
      by_cases hpk' : p.1 = k'
      · simp [hpk']
      · simp only [if_neg hpk']
        exact ih

theorem lookupA_setA_self {β : Type} (k : String) (v : β)
    (t : List (String × β)) : lookupA k (setA k v t) = some v := by
  unfold setA
  by_cases h : t.any (fun p => p.1 = k) = true
  · rw [if_pos h]
    exact lookupA_replace_self v h
  · rw [if_neg h]
    rw [lookupA_append]
    have hn : lookupA k t = none := by
      apply lookupA_eq_none_of_not_mem
      intro hmem
      exact h ((any_key_iff k t).mpr hmem)
    rw [hn]
    rw [lookupA_cons, if_pos rfl]

theorem lookupA_setA_ne {β : Type} {k k' : String} (v : β)
    (t : List (String × β)) (h : k' ≠ k) :
    lookupA k' (setA k v t) = lookupA k' t := by
  unfold setA
  by_cases ha : t.any (fun p => p.1 = k) = true
  · rw [if_pos ha]
    exact lookupA_replace_ne v t h
  · rw [if_neg ha, lookupA_append]
    cases hl : lookupA k' t with
    | some w => rfl
    | none =>
      rw [lookupA_cons, if_neg (fun hk => h hk.symm)]
      rfl

theorem keys_setA_replace {β : Type} (k : String) (v : β)
    (t : List (String × β)) :
    (t.map (fun p => if p.1 = k then (k, v) else p)).map Prod.fst =
      t.map Prod.fst := by
  induction t with
  | nil => rfl
  | cons p t ih =>
    simp only [List.map_cons]
    by_cases hpk : p.1 = k
    · rw [if_pos hpk, ih, hpk]
    · rw [if_neg hpk, ih]

theorem keysNodup_setA {β : Type} (k : String) (v : β)
    {t : List (String × β)} (hnd : keysNodup t) : keysNodup (setA k v t) := by
  unfold setA
  by_cases ha : t.any (fun p => p.1 = k) = true
  · rw [if_pos ha]
    unfold keysNodup
    rw [keys_setA_replace]
    exact hnd
  · rw [if_neg ha]
    unfold keysNodup at hnd ⊢
    rw [List.map_append]
    rw [List.nodup_append]
    refine ⟨hnd, List.nodup_singleton k, ?_⟩
    intro x hx hx'
    simp only [List.map_cons, List.map_nil, List.mem_singleton] at hx'
    subst hx'
    exact ha ((any_key_iff x t).mpr hx)

def countKeyA {β : Type} (k : String) (t : List (String × β)) : Nat :=
  (t.filter (fun p => p.1 = k)).length

theorem filter_key_nil {β : Type} {k : String} {t : List (String × β)}
    (h : k ∉ t.map Prod.fst) : t.filter (fun p => p.1 = k) = [] := by
  induction t with
  | nil => rfl
  | cons p t ih =>
    simp only [List.map_cons, List.mem_cons] at h
    push_neg at h
    rw [List.filter_cons, if_neg (by simpa using fun hpk => h.1 hpk.symm)]
    exact ih h.2

theorem countKeyA_eq_one {β : Type} {k : String} {t : List (String × β)}
    (hnd : keysNodup t) (h : k ∈ t.map Prod.fst) : countKeyA k t = 1 := by
  induction t with
  | nil => simp at h
  | cons p t ih =>
    unfold keysNodup at hnd
    simp only [List.map_cons, List.nodup_cons] at hnd
    by_cases hpk : p.1 = k
    · unfold countKeyA
      rw [List.filter_cons, if_pos (by simpa using hpk)]
      have : t.filter (fun q => q.1 = k) = [] :=
        filter_key_nil (hpk ▸ hnd.1)
      simp [this]
    · simp only [List.map_cons, List.mem_cons] at h
      rcases h with h | h
      · exact absurd h.symm hpk
      · unfold countKeyA
        rw [List.filter_cons, if_neg (by simpa using hpk)]
        exact ih hnd.2 h

theorem mem_keys_setA {β : Type} (k : String) (v : β)
    (t : List (String × β)) : k ∈ (setA k v t).map Prod.fst :=
  mem_of_lookupA_some (lookupA_setA_self k v t)

/-! ## Lemmas about the sort model -/

theorem mem_insertLe {α : Type} (le : α → α → Bool) (x y : α) (l : List α) :
    y ∈ insertLe le x l ↔ y = x ∨ y ∈ l := by
  induction l with
  | nil => simp [insertLe]
  | cons a l ih =>
    unfold insertLe
    by_cases h : le x a = true
    · simp [h]
    · rw [if_neg h]
      simp only [List.mem_cons, ih]
      tauto

theorem pairwise_insertLe {α : Type} {le : α → α → Bool}
    (htot : ∀ a b, le a b = false → le b a = true)
    (htrans : ∀ a b c, le a b = true → le b c = true → le a c = true)
    (x : α) {l : List α} (h : l.Pairwise (fun a b => le a b = true)) :
    (insertLe le x l).Pairwise (fun a b => le a b = true) := by
  induction l with
  | nil => simp [insertLe]
  | cons a l ih =>
    rw [List.pairwise_cons] at h
    unfold insertLe
    by_cases hxa : le x a = true
    · rw [if_pos hxa, List.pairwise_cons]
      refine ⟨?_, List.pairwise_cons.mpr h⟩
      intro y hy
      rcases List.mem_cons.mp hy with hya | hyl
      · exact hya ▸ hxa
      · exact htrans x a y hxa (h.1 y hyl)
    · rw [if_neg hxa, List.pairwise_cons]
      refine ⟨?_, ih h.2⟩
      intro y hy
      rcases (mem_insertLe le x y l).mp hy with hyx | hyl
      · exact hyx ▸ htot x a (Bool.eq_false_iff.mpr hxa)
      · exact h.1 y hyl

theorem sortLe_pairwise {α : Type} {le : α → α → Bool}
    (htot : ∀ a b, le a b = false → le b a = true)
    (htrans : ∀ a b c, le a b = true → le b c = true → le a c = true)
    (l : List α) : (sortLe le l).Pairwise (fun a b => le a b = true) := by
  induction l with
  | nil => simp [sortLe]
  | cons a l ih => exact pairwise_insertLe htot htrans a ih

theorem sortLe_eq_self {α : Type} {le : α → α → Bool} {l : List α}
    (h : l.Pairwise (fun a b => le a b = true)) : sortLe le l = l := by
  induction l with
  | nil => rfl
  | cons a l ih =>
    rw [List.pairwise_cons] at h
    unfold sortLe
    rw [ih h.2]
    cases l with
    | nil => rfl
    | cons b l' =>
      unfold insertLe
      rw [if_pos (h.1 b (List.mem_cons_self b l'))]

/-! ## C3: generateArticleId -/

theorem hexNibble_isLowerHex : ∀ n, n < 16 → isLowerHexDigit (hexNibble n) = true := by
  decide

theorem mem_wordToHex_isLowerHex {c : Char} {wd : Nat}
    (h : c ∈ wordToHex wd) : isLowerHexDigit c = true := by
  unfold wordToHex at h
  rcases List.mem_map.mp h with ⟨i, _, hi⟩
  rw [← hi]
  exact hexNibble_isLowerHex _ (Nat.mod_lt _ (by omega))

theorem mem_sha256HexChars_isLowerHex {c : Char} {msg : List Nat}
    (h : c ∈ sha256HexChars msg) : isLowerHexDigit c = true := by
  unfold sha256HexChars at h
  rcases List.mem_flatten.mp h with ⟨l, hl, hcl⟩
  rcases List.mem_map.mp hl with ⟨wd, _, hw⟩
  exact mem_wordToHex_isLowerHex (hw ▸ hcl)

theorem wordToHex_length (wd : Nat) : (wordToHex wd).length = 8 := by
  simp [wordToHex]

theorem sha256HexChars_length (msg : List Nat) :
    (sha256HexChars msg).length = 64 := by
  unfold sha256HexChars sha256Words
  simp [wordToHex_length]

theorem shaHexTrunc32_length (url : String) : (shaHexTrunc32 url).length = 32 := by
  show (String.mk ((sha256HexChars (utf8Encode url)).take 32)).length = 32
  have : (String.mk ((sha256HexChars (utf8Encode url)).take 32)).length =
      ((sha256HexChars (utf8Encode url)).take 32).length := rfl
  rw [this, List.length_take, sha256HexChars_length]
  rfl

theorem shaHexTrunc32_hex (url : String) :
    ∀ c ∈ (shaHexTrunc32 url).data, isLowerHexDigit c = true := by
  intro c hc
  have hc' : c ∈ (sha256HexChars (utf8Encode url)).take 32 := hc
  exact mem_sha256HexChars_isLowerHex (List.mem_of_mem_take hc')

/-- C3.  generateArticleId fails exactly on an empty url (the only falsy
string); otherwise it deterministically returns the first 32 characters of
the lowercase-hex SHA-256 digest of the url, which always has length 32
and only characters matching [a-f0-9]; ids differ whenever the truncated
digests differ (collision freedom modulo SHA-256 truncation); and the
utils.js implementation computes the identical id with the identical
failure condition, differing only in the thrown error class. -/
theorem generateArticleId_spec :
    (∀ url : String, url = "" ↔ ∃ e, generateArticleId url = .error e) ∧
    (∀ url : String, url ≠ "" →
      generateArticleId url = .ok (shaHexTrunc32 url) ∧
      (shaHexTrunc32 url).length = 32 ∧
      ∀ c ∈ (shaHexTrunc32 url).data, isLowerHexDigit c = true) ∧
    (∀ u v : String, u ≠ "" → v ≠ "" → shaHexTrunc32 u ≠ shaHexTrunc32 v →
      generateArticleId u ≠ generateArticleId v) ∧
    (∀ url : String, generateArticleIdUtils url =
      (generateArticleId url).mapError
        (fun _ => .plainError "Invalid URL provided for ID generation")) := by
  refine ⟨?_, ?_, ?_, ?_⟩
  · intro url
    constructor
    · intro h
      exact ⟨_, by rw [generateArticleId, if_pos h]⟩
    · rintro ⟨e, he⟩
      by_contra hne
      rw [generateArticleId, if_neg hne] at he
      exact Except.noConfusion he
  · intro url h
    exact ⟨by rw [generateArticleId, if_neg h], shaHexTrunc32_length url,
      shaHexTrunc32_hex url⟩
  · intro u v hu hv hne heq
    rw [generateArticleId, if_neg hu, generateArticleId, if_neg hv] at heq
    exact hne (Except.ok.inj heq)
  · intro url
    by_cases h : url = ""
    · rw [generateArticleIdUtils, if_pos h, generateArticleId, if_pos h]
      rfl
    · rw [generateArticleIdUtils, if_neg h, generateArticleId, if_neg h]
      rfl

/-- Witness for C3 at the standard test vector: sha256 of abc starts with
ba7816bf8f01cfea414140de5dae2223. -/
theorem generateArticleId_spec_witness :
    ("abc" : String) ≠ "" ∧
    generateArticleId "abc" = .ok "ba7816bf8f01cfea414140de5dae2223" ∧
    generateArticleIdUtils "abc" = .ok "ba7816bf8f01cfea414140de5dae2223" := by
  have h1 : ("abc" : String) ≠ "" := by decide
  have h2 := (generateArticleId_spec.2.1 "abc" h1).1
  have h3 : shaHexTrunc32 "abc" = "ba7816bf8f01cfea414140de5dae2223" := by decide
  have h4 := generateArticleId_spec.2.2.2 "abc"
  rw [h3] at h2
  refine ⟨h1, h2, ?_⟩
  rw [h4, h2]
  rfl

attribute [irreducible] shaHexTrunc32 sha256HexChars sha256Words utf8Encode

/-! ## C2: storeArticlesScalable preserves engagement counters -/

theorem generateArticleId_ok_inj {link id : String}
    (h : generateArticleId link = .ok id) : id = shaHexTrunc32 link := by
  by_cases hl : link = ""
  · rw [generateArticleId, if_pos hl] at h
    exact Except.noConfusion h
  · rw [generateArticleId, if_neg hl] at h
    exact (Except.ok.inj h).symm

theorem storeUpsertStep_lookup_ne (store : ArticleStore) (batchId : String)
    (now : Int) (st : ArticleStore) (a : EnrichedArticle) (k : String)
    (h : shaHexTrunc32 a.link ≠ k) :
    lookupA k (storeUpsertStep store batchId now st a) = lookupA k st := by
  unfold storeUpsertStep
  cases hg : generateArticleId a.link with
  | error e => rfl
  | ok id =>
    have hid : id = shaHexTrunc32 a.link := generateArticleId_ok_inj hg
    subst hid
    exact lookupA_setA_ne _ st (fun hk => h hk.symm)

theorem storeFold_lookup_untouched (store : ArticleStore) (batchId : String)
    (now : Int) :
    ∀ (arts : List EnrichedArticle) (st : ArticleStore) (k : String),
    (∀ a ∈ arts, shaHexTrunc32 a.link ≠ k) →
    lookupA k (arts.foldl (storeUpsertStep store batchId now) st) =
      lookupA k st := by
  intro arts
  induction arts with
  | nil => intro st k _; rfl
  | cons x arts ih =>
    intro st k h
    rw [List.foldl_cons]
    rw [ih _ k (fun a ha => h a (List.mem_cons_of_mem x ha))]
    exact storeUpsertStep_lookup_ne store batchId now st x k
      (h x (List.mem_cons_self x arts))

theorem storeFold_lookup_hit (store : ArticleStore) (batchId : String)
    (now : Int) :
    ∀ (arts : List EnrichedArticle) (st : ArticleStore) (a : EnrichedArticle),
    a ∈ arts → (arts.map (fun x => shaHexTrunc32 x.link)).Nodup →
    a.link ≠ "" →
    lookupA (shaHexTrunc32 a.link)
        (arts.foldl (storeUpsertStep store batchId now) st) =
      some (mkArticleData a (shaHexTrunc32 a.link) batchId now
        (lookupA (shaHexTrunc32 a.link) store)) := by
  intro arts
  induction arts with
  | nil => intro st a ha; exact absurd ha (List.not_mem_nil a)
  | cons x arts ih =>
    intro st a ha hnd hlink
    rw [List.map_cons, List.nodup_cons] at hnd
    rcases List.mem_cons.mp ha with hax | ha'
    · subst hax
      rw [List.foldl_cons]
      have hne : ∀ y ∈ arts, shaHexTrunc32 y.link ≠ shaHexTrunc32 a.link := by
        intro y hy hk
        exact hnd.1
          (hk ▸ List.mem_map_of_mem (fun z => shaHexTrunc32 z.link) hy)
      rw [storeFold_lookup_untouched store batchId now arts
        (storeUpsertStep store batchId now st a) (shaHexTrunc32 a.link) hne]
      unfold storeUpsertStep
      cases hg : generateArticleId a.link with
      | error e =>
        rw [generateArticleId, if_neg hlink] at hg
        exact Except.noConfusion hg
      | ok id =>
        have hid : id = shaHexTrunc32 a.link := generateArticleId_ok_inj hg
        subst hid
        exact lookupA_setA_self _ _ st
    · rw [List.foldl_cons]
      exact ih _ a ha' hnd.2 hlink

theorem storeUpsertStep_keysNodup (store : ArticleStore) (batchId : String)
    (now : Int) (st : ArticleStore) (a : EnrichedArticle)
    (h : keysNodup st) :
    keysNodup (storeUpsertStep store batchId now st a) := by
  unfold storeUpsertStep
  cases generateArticleId a.link with
  | error e => exact h
  | ok id => exact keysNodup_setA id _ h

theorem storeFold_keysNodup (store : ArticleStore) (batchId : String)
    (now : Int) :
    ∀ (arts : List EnrichedArticle) (st : ArticleStore), keysNodup st →
    keysNodup (arts.foldl (storeUpsertStep store batchId now) st) := by
  intro arts
  induction arts with
  | nil => intro st h; exact h
  | cons x arts ih =>
    intro st h
    exact ih _ (storeUpsertStep_keysNodup store batchId now st x h)

/-- C2.  storeArticlesScalable commits, for every enriched article of a
batch (with distinct derived ids and non-empty links), a single document
under the derived id whose content fields come from the enriched article
and whose engagement fields (views, saves, shares, sharesByPlatform,
trendingScore, lastViewedAt, lastSharedAt) are preserved from the
pre-existing document when the id exists and zero-initialized when it
does not; hence ingesting the same article twice leaves one stored
document whose counters equal their pre-second-ingestion values. -/
theorem storeArticlesScalable_upsert :
    (∀ (store : ArticleStore) (arts : List EnrichedArticle)
      (batchId : String) (now : Int),
      keysNodup store →
      2 + arts.length ≤ firestoreBatchLimit →
      articlesJsonLen arts ≤ maxPayloadBytes →
      (∀ a ∈ arts, a.link ≠ "") →
      (arts.map (fun a => shaHexTrunc32 a.link)).Nodup →
      ∃ st2, storeArticlesScalable store arts batchId now = .ok st2 ∧
        keysNodup st2 ∧
        ∀ a ∈ arts,
          countKeyA (shaHexTrunc32 a.link) st2 = 1 ∧
          ∃ d, lookupA (shaHexTrunc32 a.link) st2 = some d ∧
            d.title = a.title ∧ d.summary = a.summary ∧
            d.category = a.category ∧ d.link = a.link ∧
            d.source = a.source ∧ d.uniqueId = a.uniqueId ∧
            d.publishedAt = now ∧ d.batchId = batchId ∧ d.isActive = true ∧
            (∀ ex, lookupA (shaHexTrunc32 a.link) store = some ex →
              d.views = ex.views ∧ d.saves = ex.saves ∧
              d.shares = ex.shares ∧
              d.sharesByPlatform = ex.sharesByPlatform ∧
              d.trendingScore = ex.trendingScore ∧
              d.lastViewedAt = ex.lastViewedAt ∧
              d.lastSharedAt = ex.lastSharedAt) ∧
            (lookupA (shaHexTrunc32 a.link) store = none →
              d.views = 0 ∧ d.saves = 0 ∧ d.shares = 0 ∧
              d.sharesByPlatform = SharesMap.zero ∧ d.trendingScore = 0 ∧
              d.lastViewedAt = none ∧ d.lastSharedAt = none)) ∧
    (∀ (store : ArticleStore) (a : EnrichedArticle) (b1 b2 : String)
      (t1 t2 : Int),
      keysNodup store → a.link ≠ "" →
      articlesJsonLen [a] ≤ maxPayloadBytes →
      ∃ st1 st2 d1 d2,
        storeArticlesScalable store [a] b1 t1 = .ok st1 ∧
        storeArticlesScalable st1 [a] b2 t2 = .ok st2 ∧
        countKeyA (shaHexTrunc32 a.link) st2 = 1 ∧
        lookupA (shaHexTrunc32 a.link) st1 = some d1 ∧
        lookupA (shaHexTrunc32 a.link) st2 = some d2 ∧
        d2.views = d1.views ∧ d2.saves = d1.saves ∧
        d2.shares = d1.shares ∧
        d2.sharesByPlatform = d1.sharesByPlatform ∧
        d2.trendingScore = d1.trendingScore ∧
        d2.lastViewedAt = d1.lastViewedAt ∧
        d2.lastSharedAt = d1.lastSharedAt) := by
  have main : ∀ (store : ArticleStore) (arts : List EnrichedArticle)
      (batchId : String) (now : Int),
      keysNodup store →
      2 + arts.length ≤ firestoreBatchLimit →
      articlesJsonLen arts ≤ maxPayloadBytes →
      (∀ a ∈ arts, a.link ≠ "") →
      (arts.map (fun a => shaHexTrunc32 a.link)).Nodup →
      ∃ st2, storeArticlesScalable store arts batchId now = .ok st2 ∧
        keysNodup st2 ∧
        ∀ a ∈ arts,
          countKeyA (shaHexTrunc32 a.link) st2 = 1 ∧
          ∃ d, lookupA (shaHexTrunc32 a.link) st2 = some d ∧
            d.title = a.title ∧ d.summary = a.summary ∧
            d.category = a.category ∧ d.link = a.link ∧
            d.source = a.source ∧ d.uniqueId = a.uniqueId ∧
            d.publishedAt = now ∧ d.batchId = batchId ∧ d.isActive = true ∧
            (∀ ex, lookupA (shaHexTrunc32 a.link) store = some ex →
              d.views = ex.views ∧ d.saves = ex.saves ∧
              d.shares = ex.shares ∧
              d.sharesByPlatform = ex.sharesByPlatform ∧
              d.trendingScore = ex.trendingScore ∧
              d.lastViewedAt = ex.lastViewedAt ∧
              d.lastSharedAt = ex.lastSharedAt) ∧
            (lookupA (shaHexTrunc32 a.link) store = none →
              d.views = 0 ∧ d.saves = 0 ∧ d.shares = 0 ∧
              d.sharesByPlatform = SharesMap.zero ∧ d.trendingScore = 0 ∧
              d.lastViewedAt = none ∧ d.lastSharedAt = none) := by
    intro store arts batchId now hnd hsize hjson hlinks hids
    refine ⟨arts.foldl (storeUpsertStep store batchId now) store, ?_, ?_, ?_⟩
    · unfold storeArticlesScalable
      rw [if_neg (by omega), if_neg (by omega), if_neg ?_]
      simp only [List.any_eq_true, not_exists, not_and]
      intro a ha
      simpa using hlinks a ha
    · exact storeFold_keysNodup store batchId now arts store hnd
    · intro a ha
      have hlk := storeFold_lookup_hit store batchId now arts store a ha hids
        (hlinks a ha)
      constructor
      · exact countKeyA_eq_one
          (storeFold_keysNodup store batchId now arts store hnd)
          (mem_of_lookupA_some hlk)
      · refine ⟨_, hlk, ?_⟩
        cases hex : lookupA (shaHexTrunc32 a.link) store with
        | some ex =>
          refine ⟨rfl, rfl, rfl, rfl, rfl, rfl, rfl, rfl, rfl, ?_, ?_⟩
          · intro ex' hex'
            cases Option.some.inj hex'
            exact ⟨rfl, rfl, rfl, rfl, rfl, rfl, rfl⟩
          · intro habs
            exact Option.noConfusion habs
        | none =>
          refine ⟨rfl, rfl, rfl, rfl, rfl, rfl, rfl, rfl, rfl, ?_, ?_⟩
          · intro ex' hex'
            exact Option.noConfusion hex'
          · intro _
            exact ⟨rfl, rfl, rfl, rfl, rfl, rfl, rfl⟩
  refine ⟨main, ?_⟩
  intro store a b1 b2 t1 t2 hnd hlink hjson
  have hsingle : ∀ x ∈ [a], x.link ≠ "" := by
    intro x hx
    rw [List.mem_singleton] at hx
    exact hx ▸ hlink
  have hids : (([a]).map (fun x => shaHexTrunc32 x.link)).Nodup := by
    simp
  obtain ⟨st1, hok1, hnd1, hprop1⟩ :=
    main store [a] b1 t1 hnd (by norm_num [firestoreBatchLimit]) hjson
      hsingle hids
  obtain ⟨st2, hok2, hnd2, hprop2⟩ :=
    main st1 [a] b2 t2 hnd1 (by norm_num [firestoreBatchLimit]) hjson
      hsingle hids
  obtain ⟨hcnt1, d1, hd1, hfields1⟩ := hprop1 a (List.mem_singleton.mpr rfl)
  obtain ⟨hcnt2, d2, hd2, hfields2⟩ := hprop2 a (List.mem_singleton.mpr rfl)
  have hpres := hfields2.2.2.2.2.2.2.2.2.2.1 d1 hd1
  exact ⟨st1, st2, d1, d2, hok1, hok2, hcnt2, hd1, hd2, hpres.1, hpres.2.1,
    hpres.2.2.1, hpres.2.2.2.1, hpres.2.2.2.2.1, hpres.2.2.2.2.2.1,
    hpres.2.2.2.2.2.2⟩

def demoStore : ArticleStore := []

def demoArticle : EnrichedArticle :=
  { uniqueId := "https://x/1", title := "Local Dog Rescues Family",
    summary := "A positive story about animals.", category := "ANIMALS",
    link := "https://x/1", source := "demo", publishedOriginal := none,
    fetchedAt := "2025-01-01T00:00:00.000Z" }

/-- Witness for C2: a concrete article ingested twice into an empty
store. -/
theorem storeArticlesScalable_upsert_witness :
    keysNodup demoStore ∧ demoArticle.link ≠ "" ∧
    articlesJsonLen [demoArticle] ≤ maxPayloadBytes ∧
    ∃ st1 st2 d1 d2,
      storeArticlesScalable demoStore [demoArticle] "b1" 100 = .ok st1 ∧
      storeArticlesScalable st1 [demoArticle] "b2" 200 = .ok st2 ∧
      countKeyA (shaHexTrunc32 demoArticle.link) st2 = 1 ∧
      lookupA (shaHexTrunc32 demoArticle.link) st1 = some d1 ∧
      lookupA (shaHexTrunc32 demoArticle.link) st2 = some d2 ∧
      d2.views = d1.views ∧ d2.saves = d1.saves ∧ d2.shares = d1.shares ∧
      d2.sharesByPlatform = d1.sharesByPlatform ∧
      d2.trendingScore = d1.trendingScore ∧
      d2.lastViewedAt = d1.lastViewedAt ∧ d2.lastSharedAt = d1.lastSharedAt :=
  ⟨List.nodup_nil, by decide, by decide,
    storeArticlesScalable_upsert.2 demoStore demoArticle "b1" "b2" 100 200
      List.nodup_nil (by decide) (by decide)⟩

/-! ## C1: the trending score is exactly the weighted event sum -/

/-- The linear-combination invariant on a state. -/
def scoreInv (s : EngState) : Prop :=
  ∀ c, s.article = some c →
    c.trendingScore = c.views * trendingWeightViews +
      c.saves * trendingWeightSaves + c.shares * trendingWeightShares

theorem engStep_scoreInv {s : EngState} (h : scoreInv s) (op : EngOp) :
    scoreInv (engStep s op) := by
  intro c hc
  cases op with
  | ingest =>
    cases ha : s.article with
    | some c0 =>
      simp only [engStep, ha] at hc
      cases Option.some.inj hc
      exact h _ ha
    | none =>
      simp only [engStep, ha] at hc
      cases Option.some.inj hc
      rfl
  | cleanupDelete => simp [engStep] at hc
  | toggleBookmark u =>
    cases ha : s.article with
    | none =>
      simp only [engStep, ha] at hc
      exact Option.noConfusion hc
    | some c0 =>
      have h0 := h c0 ha
      by_cases hmem : u ∈ s.bookmarks
      · simp only [engStep, ha, if_pos hmem] at hc
        cases Option.some.inj hc
        dsimp only
        simp only [trendingWeightViews, trendingWeightSaves,
          trendingWeightShares] at h0 ⊢
        omega
      · simp only [engStep, ha, if_neg hmem] at hc
        cases Option.some.inj hc
        dsimp only
        simp only [trendingWeightViews, trendingWeightSaves,
          trendingWeightShares] at h0 ⊢
        omega
  | trackView =>
    cases ha : s.article with
    | none =>
      simp only [engStep, ha] at hc
      exact Option.noConfusion hc
    | some c0 =>
      have h0 := h c0 ha
      simp only [engStep, ha] at hc
      cases Option.some.inj hc
      dsimp only
      simp only [trendingWeightViews, trendingWeightSaves,
        trendingWeightShares] at h0 ⊢
      omega
  | trackShare p =>
    cases ha : s.article with
    | none =>
      simp only [engStep, ha] at hc
      exact Option.noConfusion hc
    | some c0 =>
      have h0 := h c0 ha
      simp only [engStep, ha] at hc
      cases Option.some.inj hc
      dsimp only
      simp only [trendingWeightViews, trendingWeightSaves,
        trendingWeightShares] at h0 ⊢
      omega

theorem engRun_scoreInv {s : EngState} (h : scoreInv s) :
    ∀ ops : List EngOp, scoreInv (engRun s ops) := by
  intro ops
  induction ops generalizing s with
  | nil => exact h
  | cons op ops ih => exact ih (engStep_scoreInv h op)

/-- C1.  After any sequence of trackView, trackShare, toggleBookmark
operations starting from a freshly ingested document with all counters
zero (and any pre-existing bookmark references), the persisted
trendingScore equals views times 1 plus saves times 2 plus shares times 3,
the configured weights applied to the accumulated counts. -/
theorem trendingScore_invariant (ops : List EngOp) (bm : List String)
    (_hops : ∀ op ∈ ops, op.isEngagement = true) :
    ∀ c, (engRun (freshArticle bm) ops).article = some c →
      c.trendingScore = c.views * trendingWeightViews +
        c.saves * trendingWeightSaves + c.shares * trendingWeightShares := by
  have hinit : scoreInv (freshArticle bm) := by
    intro c hc
    cases Option.some.inj hc
    rfl
  exact engRun_scoreInv hinit ops

def demoOps : List EngOp :=
  [.trackView, .toggleBookmark "u", .trackShare "twitter"]

def demoCounters : Counters := ⟨1, 1, 1, 6, ⟨1, 0, 0, 0, 0, 0, 0⟩⟩

/-- Witness for C1: one view, one bookmark, one twitter share give score
6 = 1*1 + 1*2 + 1*3. -/
theorem trendingScore_invariant_witness :
    (engRun (freshArticle []) demoOps).article = some demoCounters ∧
    demoCounters.trendingScore =
      demoCounters.views * trendingWeightViews +
      demoCounters.saves * trendingWeightSaves +
      demoCounters.shares * trendingWeightShares :=
  ⟨by decide, trendingScore_invariant demoOps [] (by decide) demoCounters
    (by decide)⟩

/-! ## C9: counter non-negativity -/

/-- Non-negativity of the counters that only ever receive increments. -/
def incOnlyNonNeg (s : EngState) : Prop :=
  ∀ c, s.article = some c →
    0 ≤ c.views ∧ 0 ≤ c.shares ∧ c.sharesByPlatform.NonNeg

theorem sharesMap_inc_nonneg {m : SharesMap} (h : m.NonNeg) (p : String) :
    (m.inc p).NonNeg := by
  unfold SharesMap.inc
  unfold SharesMap.NonNeg at h ⊢
  split_ifs <;> simp_all <;> omega

theorem engStep_incOnlyNonNeg {s : EngState} (h : incOnlyNonNeg s)
    (op : EngOp) : incOnlyNonNeg (engStep s op) := by
  intro c hc
  cases op with
  | ingest =>
    cases ha : s.article with
    | some c0 =>
      simp only [engStep, ha] at hc
      cases Option.some.inj hc
      exact h _ ha
    | none =>
      simp only [engStep, ha] at hc
      cases Option.some.inj hc
      exact ⟨le_refl 0, le_refl 0, le_refl 0, le_refl 0, le_refl 0,
        le_refl 0, le_refl 0, le_refl 0, le_refl 0⟩
  | cleanupDelete => simp [engStep] at hc
  | toggleBookmark u =>
    cases ha : s.article with
    | none =>
      simp only [engStep, ha] at hc
      exact Option.noConfusion hc
    | some c0 =>
      have h0 := h c0 ha
      by_cases hmem : u ∈ s.bookmarks
      · simp only [engStep, ha, if_pos hmem] at hc
        cases Option.some.inj hc
        exact h0
      · simp only [engStep, ha, if_neg hmem] at hc
        cases Option.some.inj hc
        exact h0
  | trackView =>
    cases ha : s.article with
    | none =>
      simp only [engStep, ha] at hc
      exact Option.noConfusion hc
    | some c0 =>
      have h0 := h c0 ha
      simp only [engStep, ha] at hc
      cases Option.some.inj hc
      dsimp only
      refine ⟨?_, h0.2.1, h0.2.2⟩
      have := h0.1
      omega
  | trackShare p =>
    cases ha : s.article with
    | none =>
      simp only [engStep, ha] at hc
      exact Option.noConfusion hc
    | some c0 =>
      have h0 := h c0 ha
      simp only [engStep, ha] at hc
      cases Option.some.inj hc
      dsimp only
      refine ⟨h0.1, ?_, sharesMap_inc_nonneg h0.2.2 _⟩
      have := h0.2.1
      omega

theorem engRun_incOnlyNonNeg {s : EngState} (h : incOnlyNonNeg s) :
    ∀ ops : List EngOp, incOnlyNonNeg (engRun s ops) := by
  intro ops
  induction ops generalizing s with
  | nil => exact h
  | cons op ops ih => exact ih (engStep_incOnlyNonNeg h op)

/-- The saves counter mirrors the bookmark references as long as no
retention deletion intervenes. -/
def savesInv (s : EngState) : Prop :=
  s.bookmarks.Nodup ∧ (s.article = none → s.bookmarks = []) ∧
  ∀ c, s.article = some c → c.saves = (s.bookmarks.length : Int)

theorem filter_ne_length {l : List String} {u : String} (hnd : l.Nodup)
    (hmem : u ∈ l) :
    (l.filter (fun x => x ≠ u)).length + 1 = l.length := by
  induction l with
  | nil => simp at hmem
  | cons a l ih =>
    rw [List.nodup_cons] at hnd
    by_cases hau : a = u
    · subst hau
      rw [List.filter_cons, if_neg (by simp)]
      have hall : l.filter (fun x => x ≠ a) = l := by
        apply List.filter_eq_self.mpr
        intro x hx
        simp only [ne_eq, decide_eq_true_eq]
        intro hxa
        exact hnd.1 (hxa ▸ hx)
      rw [hall]
      simp
    · rw [List.filter_cons, if_pos (by simpa using hau)]
      rcases List.mem_cons.mp hmem with hua | hul
      · exact absurd hua.symm hau
      · have := ih hnd.2 hul
        simp only [List.length_cons]
        omega

theorem engStep_savesInv {s : EngState} (h : savesInv s) (op : EngOp)
    (hop : op ≠ .cleanupDelete) : savesInv (engStep s op) := by
  obtain ⟨hnd, hnone, hsave⟩ := h
  cases op with
  | ingest =>
    refine ⟨hnd, ?_, ?_⟩
    · intro habs
      simp only [engStep] at habs
      exact Option.noConfusion habs
    · intro c hc
      cases ha : s.article with
      | some c0 =>
        simp only [engStep, ha] at hc ⊢
        cases Option.some.inj hc
        exact hsave _ ha
      | none =>
        simp only [engStep, ha] at hc ⊢
        cases Option.some.inj hc
        rw [hnone ha]
        rfl
  | cleanupDelete => exact absurd rfl hop
  | toggleBookmark u =>
    cases ha : s.article with
    | none =>
      have hs : engStep s (.toggleBookmark u) = s := by
        simp [engStep, ha]
      rw [hs]
      exact ⟨hnd, hnone, hsave⟩
    | some c0 =>
      by_cases hmem : u ∈ s.bookmarks
      · refine ⟨?_, ?_, ?_⟩
        · simp only [engStep, ha, if_pos hmem]
          exact hnd.filter _
        · intro habs
          simp only [engStep, ha, if_pos hmem] at habs
          exact Option.noConfusion habs
        · intro c hc
          simp only [engStep, ha, if_pos hmem] at hc ⊢
          cases Option.some.inj hc
          dsimp only
          have hlen := filter_ne_length hnd hmem
          have hsv := hsave c0 ha
          omega
      · refine ⟨?_, ?_, ?_⟩
        · simp only [engStep, ha, if_neg hmem]
          rw [List.nodup_append]
          refine ⟨hnd, List.nodup_singleton u, ?_⟩
          intro x hx hx'
          rw [List.mem_singleton] at hx'
          exact hmem (hx' ▸ hx)
        · intro habs
          simp only [engStep, ha, if_neg hmem] at habs
          exact Option.noConfusion habs
        · intro c hc
          simp only [engStep, ha, if_neg hmem] at hc ⊢
          cases Option.some.inj hc
          dsimp only
          have hsv := hsave c0 ha
          rw [List.length_append]
          simp only [List.length_cons, List.length_nil]
          omega
  | trackView =>
    cases ha : s.article with
    | none =>
      have hs : engStep s .trackView = s := by
        simp [engStep, ha]
      rw [hs]
      exact ⟨hnd, hnone, hsave⟩
    | some c0 =>
      refine ⟨?_, ?_, ?_⟩
      · simp only [engStep, ha]
        exact hnd
      · intro habs
        simp only [engStep, ha] at habs
        exact Option.noConfusion habs
      · intro c hc
        simp only [engStep, ha] at hc ⊢
        cases Option.some.inj hc
        dsimp only
        exact hsave _ ha
  | trackShare p =>
    cases ha : s.article with
    | none =>
      have hs : engStep s (.trackShare p) = s := by
        simp [engStep, ha]
      rw [hs]
      exact ⟨hnd, hnone, hsave⟩
    | some c0 =>
      refine ⟨?_, ?_, ?_⟩
      · simp only [engStep, ha]
        exact hnd
      · intro habs
        simp only [engStep, ha] at habs
        exact Option.noConfusion habs
      · intro c hc
        simp only [engStep, ha] at hc ⊢
        cases Option.some.inj hc
        dsimp only
        exact hsave _ ha

theorem engRun_savesInv {s : EngState} (h : savesInv s) :
    ∀ ops : List EngOp, (∀ op ∈ ops, op ≠ .cleanupDelete) →
    savesInv (engRun s ops) := by
  intro ops
  induction ops generalizing s with
  | nil => intro _; exact h
  | cons op ops ih =>
    intro hops
    exact ih (engStep_savesInv h op (hops op (List.mem_cons_self op ops)))
      (fun o ho => hops o (List.mem_cons_of_mem op ho))

def c9BadOps : List EngOp :=
  [.ingest, .toggleBookmark "u", .cleanupDelete, .ingest,
   .toggleBookmark "u"]

/-- Counterexample to C9 as stated: ingest, bookmark, retention-delete,
re-ingest, toggle again drives the persisted saves counter to minus one
(the retention sweep deletes the article document but not the bookmark
reference, and re-ingestion zero-initializes the counters, so the next
toggle decrements from zero). -/
theorem counters_nonneg_counterexample :
    (engRun engInit c9BadOps).article.map Counters.saves = some (-1) ∧
    ¬ (0 : Int) ≤ -1 := by
  constructor
  · decide
  · decide

/-- C9 amended.  views, shares and every sharesByPlatform entry stay
non-negative under every operation sequence; saves and trendingScore stay
non-negative provided the sequence contains no retention deletion (a
deletion can orphan bookmark references, and after re-ingestion a toggle
drives saves below zero, as the counterexample shows). -/
theorem counters_nonneg_amended (ops : List EngOp) :
    (∀ c, (engRun engInit ops).article = some c →
      0 ≤ c.views ∧ 0 ≤ c.shares ∧ c.sharesByPlatform.NonNeg) ∧
    ((∀ op ∈ ops, op ≠ .cleanupDelete) →
      ∀ c, (engRun engInit ops).article = some c →
        0 ≤ c.saves ∧ 0 ≤ c.trendingScore) := by
  constructor
  · have hinit : incOnlyNonNeg engInit := by
      intro c hc
      exact Option.noConfusion hc
    exact engRun_incOnlyNonNeg hinit ops
  · intro hops c hc
    have hinit1 : incOnlyNonNeg engInit := by
      intro c hc
      exact Option.noConfusion hc
    have hinit2 : savesInv engInit :=
      ⟨List.nodup_nil, fun _ => rfl, fun c hc => Option.noConfusion hc⟩
    have hinit3 : scoreInv engInit := fun c hc => Option.noConfusion hc
    have h1 := engRun_incOnlyNonNeg hinit1 ops c hc
    have h2 := (engRun_savesInv hinit2 ops hops).2.2 c hc
    have h3 := engRun_scoreInv hinit3 ops c hc
    have hsaves : 0 ≤ c.saves := by
      rw [h2]
      exact Int.natCast_nonneg _
    refine ⟨hsaves, ?_⟩
    rw [h3]
    simp only [trendingWeightViews, trendingWeightSaves,
      trendingWeightShares]
    have := h1.1
    have := h1.2.1
    omega

def demo9Ops : List EngOp := [.ingest, .toggleBookmark "u", .trackView]

/-- Witness for the amended C9 at a concrete deletion-free sequence. -/
theorem counters_nonneg_amended_witness :
    (engRun engInit demo9Ops).article =
      some ⟨1, 1, 0, 3, SharesMap.zero⟩ ∧
    (0 : Int) ≤ (1 : Int) ∧ (0 : Int) ≤ (3 : Int) := by
  have h := (counters_nonneg_amended demo9Ops).2 (by decide)
    ⟨1, 1, 0, 3, SharesMap.zero⟩ (by decide)
  exact ⟨by decide, h.1, h.2⟩

/-! ## C6: TTL cache contract -/

/-- C6.  A get after a set within the TTL returns the stored value; a get
at or past the TTL is a miss; a get for an absent key is a miss; and a get
at any time after an invalidation write is a miss (while the
near-zero-TTL entry is fresh it serves its stored value, which is the
null written by the invalidation, i.e. the miss result itself). -/
theorem sharedCache_contract {α : Type} (store : CacheStore α)
    (key : String) (v : Option α) (ttl : ℚ) (t0 t1 : Int) :
    (((t1 - t0 : Int) : ℚ) < ttl * 60 * 1000 →
      getSharedCache (setSharedCache store key v ttl t0) key ttl t1 = v) ∧
    (ttl * 60 * 1000 ≤ ((t1 - t0 : Int) : ℚ) →
      getSharedCache (setSharedCache store key v ttl t0) key ttl t1 =
        none) ∧
    (lookupA key store = none → getSharedCache store key ttl t1 = none) ∧
    (getSharedCache (invalidateCacheKey store key t0) key ttl t1 = none) := by
  refine ⟨?_, ?_, ?_, ?_⟩
  · intro hfresh
    unfold getSharedCache setSharedCache
    rw [lookupA_setA_self]
    exact if_pos hfresh
  · intro hexp
    unfold getSharedCache setSharedCache
    rw [lookupA_setA_self]
    exact if_neg (not_lt.mpr hexp)
  · intro habs
    unfold getSharedCache
    rw [habs]
  · unfold invalidateCacheKey getSharedCache setSharedCache
    rw [lookupA_setA_self]
    dsimp only
    split <;> rfl

/-- Witness for C6 with a Nat-valued cache: a 5-minute entry read 1000ms
after the write hits; the same entry read 600000ms later misses; an
invalidated key misses immediately. -/
theorem sharedCache_contract_witness :
    (((1000 - 0 : Int) : ℚ) < 5 * 60 * 1000 ∧
      getSharedCache (setSharedCache ([] : CacheStore Nat) "k" (some 7) 5 0)
        "k" 5 1000 = some 7) ∧
    ((5 : ℚ) * 60 * 1000 ≤ ((600000 - 0 : Int) : ℚ) ∧
      getSharedCache (setSharedCache ([] : CacheStore Nat) "k" (some 7) 5 0)
        "k" 5 600000 = none) ∧
    getSharedCache
      (invalidateCacheKey
        (setSharedCache ([] : CacheStore Nat) "k" (some 7) 5 0) "k" 0)
      "k" 5 0 = none := by
  have h1 : (((1000 - 0 : Int) : ℚ)) < 5 * 60 * 1000 := by norm_num
  have h2 : (5 : ℚ) * 60 * 1000 ≤ ((600000 - 0 : Int) : ℚ) := by norm_num
  have hc := sharedCache_contract ([] : CacheStore Nat) "k" (some 7)
    (5 : ℚ) 0 1000
  have hc2 := sharedCache_contract ([] : CacheStore Nat) "k" (some 7)
    (5 : ℚ) 0 600000
  have hc3 := sharedCache_contract
    (setSharedCache ([] : CacheStore Nat) "k" (some 7) 5 0) "k" (some 7)
    (5 : ℚ) 0 0
  exact ⟨⟨h1, hc.1 h1⟩, ⟨h2, hc2.2.1 h2⟩, hc3.2.2.2⟩

/-! ## C7: withRetry error policy -/

def rlThenOk : Nat → Except JsError Nat := fun n =>
  if n = 1 then .error (.rateLimitError "quota" "gemini" 300) else .ok 42

/-- Counterexample to C7 as stated: the utils.js withRetry has no
RateLimitError short-circuit — an operation that is rate-limited on
attempt 1 and succeeds on attempt 2 is invoked a second time and returns
its value, so the rate-limited error is not re-thrown immediately in both
implementations. -/
theorem withRetry_rateLimit_counterexample :
    rlThenOk 1 = .error (.rateLimitError "quota" "gemini" 300) ∧
    JsError.isRateLimit (.rateLimitError "quota" "gemini" 300) = true ∧
    withRetryUtils rlThenOk 3 = (.ok (some 42), 2) :=
  ⟨rfl, rfl, rfl⟩

theorem jsRetryGo_exhaust {α : Type} (op : Nat → Except JsError α)
    (maxAttempts : Nat) :
    ∀ (fuel attempt count : Nat), attempt + fuel = maxAttempts + 1 →
    1 ≤ fuel →
    (∀ i, attempt ≤ i → i ≤ maxAttempts →
      ∃ e, op i = .error e ∧ (i < maxAttempts → e.isRateLimit = false)) →
    ∃ e, op maxAttempts = .error e ∧
      jsRetryGo op maxAttempts fuel attempt count =
        (.error e, count + fuel) := by
  intro fuel
  induction fuel with
  | zero => intro attempt count _ h1; omega
  | succ f ih =>
    intro attempt count hsum _ h
    have hle : attempt ≤ maxAttempts := by omega
    obtain ⟨e, he, hrl⟩ := h attempt (le_refl attempt) hle
    by_cases hcond : maxAttempts ≤ attempt
    · have hattempt : attempt = maxAttempts := le_antisymm hle hcond
      have hf : f = 0 := by omega
      subst hattempt
      subst hf
      refine ⟨e, he, ?_⟩
      simp only [jsRetryGo, he]
      rw [if_pos (by simp [decide_eq_true hcond])]
    · have hlt : attempt < maxAttempts := lt_of_le_of_ne hle
        (fun hx => hcond (le_of_eq hx.symm))
      have hrlf : e.isRateLimit = false := hrl hlt
      have hf : 1 ≤ f := by omega
      obtain ⟨e', he', heq⟩ := ih (attempt + 1) (count + 1) (by omega) hf
        (fun i hi1 hi2 => h i (by omega) hi2)
      refine ⟨e', he', ?_⟩
      simp only [jsRetryGo, he]
      rw [if_neg (by simp [decide_eq_false hcond, hrlf])]
      rw [heq]
      have : count + 1 + f = count + (f + 1) := by omega
      rw [this]

theorem utilsRetryGo_exhaust {α : Type} (op : Nat → Except JsError α)
    (maxAttempts : Nat) :
    ∀ (fuel attempt count : Nat), attempt + fuel = maxAttempts + 1 →
    1 ≤ fuel →
    (∀ i, attempt ≤ i → i ≤ maxAttempts → ∃ e, op i = .error e) →
    ∃ e, op maxAttempts = .error e ∧
      utilsRetryGo op maxAttempts fuel attempt count =
        (.error e, count + fuel) := by
  intro fuel
  induction fuel with
  | zero => intro attempt count _ h1; omega
  | succ f ih =>
    intro attempt count hsum _ h
    have hle : attempt ≤ maxAttempts := by omega
    obtain ⟨e, he⟩ := h attempt (le_refl attempt) hle
    by_cases hcond : maxAttempts ≤ attempt
    · have hattempt : attempt = maxAttempts := le_antisymm hle hcond
      have hf : f = 0 := by omega
      subst hattempt
      subst hf
      refine ⟨e, he, ?_⟩
      simp only [utilsRetryGo, he]
      rw [if_pos hcond]
    · have hf : 1 ≤ f := by omega
      obtain ⟨e', he', heq⟩ := ih (attempt + 1) (count + 1) (by omega) hf
        (fun i hi1 hi2 => h i (by omega) hi2)
      refine ⟨e', he', ?_⟩
      simp only [utilsRetryGo, he]
      rw [if_neg hcond]
      rw [heq]
      have : count + 1 + f = count + (f + 1) := by omega
      rw [this]

/-- C7 amended.  In the backend implementation a RateLimitError thrown by
the operation is re-thrown immediately after a single invocation; in both
implementations, when every attempt fails the last error is re-thrown to
the caller (never swallowed or defaulted); the utils.js implementation,
however, retries a rate-limited error like any other error. -/
theorem withRetry_error_policy :
    (∀ {α : Type} (op : Nat → Except JsError α) (maxAttempts : Nat)
      (e : JsError), 1 ≤ maxAttempts → op 1 = .error e →
      e.isRateLimit = true → withRetry op maxAttempts = (.error e, 1)) ∧
    (∀ {α : Type} (op : Nat → Except JsError α) (maxAttempts : Nat),
      1 ≤ maxAttempts →
      (∀ i, 1 ≤ i → i ≤ maxAttempts →
        ∃ e, op i = .error e ∧ (i < maxAttempts → e.isRateLimit = false)) →
      ∃ e, op maxAttempts = .error e ∧
        withRetry op maxAttempts = (.error e, maxAttempts)) ∧
    (∀ {α : Type} (op : Nat → Except JsError α) (maxAttempts : Nat),
      1 ≤ maxAttempts →
      (∀ i, 1 ≤ i → i ≤ maxAttempts → ∃ e, op i = .error e) →
      ∃ e, op maxAttempts = .error e ∧
        withRetryUtils op maxAttempts = (.error e, maxAttempts)) := by
  refine ⟨?_, ?_, ?_⟩
  · intro α op maxAttempts e hmax h1 hrl
    unfold withRetry
    cases maxAttempts with
    | zero => omega
    | succ m =>
      simp only [jsRetryGo, h1]
      rw [if_pos (by simp [hrl])]
  · intro α op maxAttempts hmax h
    obtain ⟨e, he, heq⟩ := jsRetryGo_exhaust op maxAttempts maxAttempts 1 0
      (by omega) hmax h
    refine ⟨e, he, ?_⟩
    unfold withRetry
    rw [heq]
    norm_num
  · intro α op maxAttempts hmax h
    obtain ⟨e, he, heq⟩ := utilsRetryGo_exhaust op maxAttempts maxAttempts
      1 0 (by omega) hmax h
    refine ⟨e, he, ?_⟩
    unfold withRetryUtils
    rw [heq]
    norm_num

/-- Witness for the amended C7: the backend withRetry re-throws the
rate-limited error after exactly one invocation. -/
theorem withRetry_error_policy_witness :
    (1 : Nat) ≤ 3 ∧
    rlThenOk 1 = .error (.rateLimitError "quota" "gemini" 300) ∧
    JsError.isRateLimit (.rateLimitError "quota" "gemini" 300) = true ∧
    withRetry rlThenOk 3 =
      (.error (.rateLimitError "quota" "gemini" 300), 1) :=
  ⟨by decide, rfl, rfl,
    withRetry_error_policy.1 rlThenOk 3 _ (by decide) rfl rfl⟩

/-! ## C8: ConcurrentRequestTracker admission -/

theorem lookupA_isSome_of_mem {β : Type} {k : String}
    {t : List (String × β)} (h : k ∈ t.map Prod.fst) :
    ∃ v, lookupA k t = some v := by
  induction t with
  | nil => simp at h
  | cons p t ih =>
    by_cases hpk : p.1 = k
    · exact ⟨p.2, by rw [lookupA_cons, if_pos hpk]⟩
    · simp only [List.map_cons, List.mem_cons] at h
      rcases h with h | h
      · exact absurd h.symm hpk
      · obtain ⟨v, hv⟩ := ih h
        exact ⟨v, by rw [lookupA_cons, if_neg hpk]; exact hv⟩

theorem lookupA_mapSnd {β γ : Type} (k : String) (g : β → γ)
    (t : List (String × β)) :
    lookupA k (t.map (fun p => (p.1, g p.2))) = (lookupA k t).map g := by
  induction t with
  | nil => rfl
  | cons p t ih =>
    simp only [List.map_cons]
    rw [lookupA_cons, lookupA_cons]
    by_cases hpk : p.1 = k
    · simp [hpk]
    · simp only [if_neg hpk]
      exact ih

theorem lookupA_filter_snd {β : Type} (k : String) (q : β → Bool)
    {t : List (String × β)} (hnd : keysNodup t) :
    lookupA k (t.filter (fun p => q p.2)) =
      match lookupA k t with
      | none => none
      | some v => if q v then some v else none := by
  induction t with
  | nil => rfl
  | cons p t ih =>
    unfold keysNodup at hnd
    rw [List.map_cons, List.nodup_cons] at hnd
    rw [List.filter_cons]
    by_cases hpk : p.1 = k
    · by_cases hq : q p.2 = true
      · rw [if_pos hq, lookupA_cons, if_pos hpk, lookupA_cons, if_pos hpk]
        simp [hq]
      · rw [if_neg (by simpa using hq), lookupA_cons, if_pos hpk]
        have hnone : lookupA k (t.filter (fun p => q p.2)) = none := by
          apply lookupA_eq_none_of_not_mem
          intro hmem
          rcases List.mem_map.mp hmem with ⟨p', hp', hfst⟩
          exact (hpk ▸ hnd.1)
            (hfst ▸ List.mem_map_of_mem Prod.fst (List.mem_of_mem_filter hp'))
        rw [hnone]
        simp [hq]
    · have htail : keysNodup t := hnd.2
      by_cases hq : q p.2 = true
      · rw [if_pos hq, lookupA_cons, if_neg hpk, lookupA_cons, if_neg hpk]
        exact ih htail
      · rw [if_neg (by simpa using hq), lookupA_cons, if_neg hpk]
        exact ih htail

theorem keys_cleanup (now : Int) (t : Tracker) :
    ((t.map (fun p =>
      (p.1, p.2.filter (fun ts => now - requestTimeWindowMs < ts)))).map
        Prod.fst) = t.map Prod.fst := by
  rw [List.map_map]
  rfl

theorem lookupA_cleanup (now : Int) {t : Tracker} (uid : String)
    (hnd : keysNodup t) :
    lookupA uid (cleanupOldRequests now t) =
      match lookupA uid t with
      | none => none
      | some ts =>
        let f := ts.filter (fun x => now - requestTimeWindowMs < x)
        if f ≠ [] then some f else none := by
  unfold cleanupOldRequests
  have hnd' : keysNodup (t.map (fun p =>
      (p.1, p.2.filter (fun ts => now - requestTimeWindowMs < ts)))) := by
    unfold keysNodup
    rw [keys_cleanup]
    exact hnd
  have h1 := lookupA_filter_snd uid (fun ts : List Int => ts ≠ []) hnd'
  have h2 := lookupA_mapSnd uid
    (fun ts : List Int => ts.filter (fun x => now - requestTimeWindowMs < x)) t
  rw [show (fun p : String × List Int => decide (p.2 ≠ [])) =
    (fun p : String × List Int => (fun ts : List Int => decide (ts ≠ [])) p.2)
    from rfl] at h1
  rw [h1, h2]
  cases lookupA uid t with
  | none => rfl
  | some ts =>
    simp

/-- The per-element equivalence of the cleanup filter (keep timestamps
after the cutoff) and the admission filter (count timestamps younger than
the window). -/
theorem cleanup_filter_eq_active_filter (now : Int) (ts : List Int) :
    ts.filter (fun x => now - requestTimeWindowMs < x) =
      ts.filter (fun x => now - x < requestTimeWindowMs) := by
  apply List.filter_congr
  intro x _
  apply decide_eq_decide.mpr
  omega

theorem active_filter_idem (now : Int) (ts : List Int) :
    ((ts.filter (fun x => now - x < requestTimeWindowMs)).filter
      (fun x => now - x < requestTimeWindowMs)) =
      ts.filter (fun x => now - x < requestTimeWindowMs) := by
  rw [List.filter_filter]
  apply List.filter_congr
  intro x _
  simp

/-- C8.  An authenticated request is admitted exactly when the caller has
fewer than maxConcurrentRequests (5) recorded timestamps inside the
trailing 30-second window — so a sixth request inside the window is
denied and a request after the window has rolled over is admitted — and
an anonymous request is always admitted, unchanged state. -/
theorem concurrencyGuard_admission (t : Tracker) (now : Int) (uid : String)
    (hnd : keysNodup t) :
    ((trackRequest t now (some uid)).1 = true ↔
      activeRequestCount t uid now < maxConcurrentRequests) ∧
    trackRequest t now none = (true, t) := by
  constructor
  · unfold trackRequest activeRequestCount
    cases hl : lookupA uid t with
    | none =>
      have hclean : lookupA uid (cleanupOldRequests now t) = none := by
        rw [lookupA_cleanup now uid hnd, hl]
      have hany : (cleanupOldRequests now t).any (fun p => p.1 = uid) =
          false := by
        cases hany : (cleanupOldRequests now t).any (fun p => p.1 = uid) with
        | false => rfl
        | true =>
          obtain ⟨v, hv⟩ := lookupA_isSome_of_mem
            ((any_key_iff uid (cleanupOldRequests now t)).mp hany)
          rw [hclean] at hv
          exact Option.noConfusion hv
      simp only [hany, Bool.false_eq_true, if_false]
      have hlk : lookupA uid (cleanupOldRequests now t ++ [(uid, [])]) =
          some [] := by
        rw [lookupA_append, hclean]
        rw [lookupA_cons, if_pos rfl]
      rw [hlk]
      simp [maxConcurrentRequests]
    | some ts0 =>
      have hclean := lookupA_cleanup now uid hnd
      rw [hl] at hclean
      simp only at hclean
      by_cases hf : ts0.filter (fun x => now - requestTimeWindowMs < x) = []
      · rw [if_neg (by simpa using hf)] at hclean
        have hany : (cleanupOldRequests now t).any (fun p => p.1 = uid) =
            false := by
          cases hany : (cleanupOldRequests now t).any (fun p => p.1 = uid) with
          | false => rfl
          | true =>
            obtain ⟨v, hv⟩ := lookupA_isSome_of_mem
              ((any_key_iff uid (cleanupOldRequests now t)).mp hany)
            rw [hclean] at hv
            exact Option.noConfusion hv
        simp only [hany, Bool.false_eq_true, if_false]
        have hlk : lookupA uid (cleanupOldRequests now t ++ [(uid, [])]) =
            some [] := by
          rw [lookupA_append, hclean]
          rw [lookupA_cons, if_pos rfl]
        rw [hlk]
        have hcnt : (ts0.filter
            (fun x => now - x < requestTimeWindowMs)).length = 0 := by
          rw [← cleanup_filter_eq_active_filter, hf]
          rfl
        simp [hcnt, maxConcurrentRequests]
      · rw [if_pos (by simpa using hf)] at hclean
        have hany : (cleanupOldRequests now t).any (fun p => p.1 = uid) =
            true :=
          (any_key_iff uid (cleanupOldRequests now t)).mpr
            (mem_of_lookupA_some hclean)
        simp only [hany, if_true]
        rw [hclean]
        rw [cleanup_filter_eq_active_filter] at hclean ⊢
        simp only [Option.getD_some]
        rw [active_filter_idem]
        by_cases hge : maxConcurrentRequests ≤
            (ts0.filter (fun x => now - x < requestTimeWindowMs)).length
        · rw [if_pos hge]
          simp only [Bool.false_eq_true, false_iff]
          omega
        · rw [if_neg hge]
          simp only [true_iff]
          omega
  · rfl

def demoTracker : Tracker := [("u", [0, 1, 2, 3, 4])]

/-- Witness for C8: a caller with five in-window timestamps is denied;
an anonymous request is admitted. -/
theorem concurrencyGuard_admission_witness :
    keysNodup demoTracker ∧
    ¬ activeRequestCount demoTracker "u" 10 < maxConcurrentRequests ∧
    (trackRequest demoTracker 10 (some "u")).1 = false ∧
    trackRequest demoTracker 10 none = (true, demoTracker) := by
  have h := concurrencyGuard_admission demoTracker 10 "u"
    (by simp [keysNodup, demoTracker])
  refine ⟨by simp [keysNodup, demoTracker], by decide, ?_, h.2⟩
  cases hb : (trackRequest demoTracker 10 (some "u")).1 with
  | false => rfl
  | true => exact absurd (h.1.mp hb) (by decide)

/-! ## C4: classifier failures never propagate -/

/-- C4.  In both implementations: when the AI call fails for any reason
(or the key is missing) the classifier returns the heuristic
basicKeywordFilter result on the same raw articles; when the response
text does not parse as a JSON array it returns the heuristic result; and
when the response parses as an empty JSON array it returns the empty
result set without invoking the heuristic fallback.  A whitespace-only
response cannot parse as an array, so the empty-array case is stated for
responses with non-empty trim. -/
theorem classifier_fallback (parseArr : String → Option (List AiItem))
    (now : String) (articles : List RawArticle) :
    (filterAndEnrichArticlesWithAI parseArr now articles .noApiKey =
      basicKeywordFilter now articles) ∧
    (∀ e, filterAndEnrichArticlesWithAI parseArr now articles
      (.callFailed e) = basicKeywordFilter now articles) ∧
    (∀ text, parseArr text = none →
      filterAndEnrichArticlesWithAI parseArr now articles
        (.responded text) = basicKeywordFilter now articles) ∧
    (∀ text, jsTrim text ≠ "" → parseArr text = some [] →
      filterAndEnrichArticlesWithAI parseArr now articles
        (.responded text) = []) ∧
    (filterAndEnrichArticlesWithAIPwa parseArr now articles .noApiKey =
      .inl (basicKeywordFilterPwa now articles)) ∧
    (∀ e, filterAndEnrichArticlesWithAIPwa parseArr now articles
      (.callFailed e) = .inl (basicKeywordFilterPwa now articles)) ∧
    (∀ text, parseArr text = none →
      filterAndEnrichArticlesWithAIPwa parseArr now articles
        (.responded text) = .inl (basicKeywordFilterPwa now articles)) ∧
    (∀ text, jsTrim text ≠ "" → parseArr text = some [] →
      filterAndEnrichArticlesWithAIPwa parseArr now articles
        (.responded text) = .inr []) := by
  refine ⟨rfl, fun e => rfl, ?_, ?_, rfl, fun e => rfl, ?_, ?_⟩
  · intro text hp
    unfold filterAndEnrichArticlesWithAI
    dsimp only
    by_cases ht : jsTrim text = ""
    · rw [if_pos ht]
    · rw [if_neg ht, hp]
  · intro text ht hp
    unfold filterAndEnrichArticlesWithAI
    dsimp only
    rw [if_neg ht, hp]
    rfl
  · intro text hp
    unfold filterAndEnrichArticlesWithAIPwa
    dsimp only
    by_cases ht : jsTrim text = ""
    · rw [if_pos ht]
    · rw [if_neg ht, hp]
  · intro text ht hp
    unfold filterAndEnrichArticlesWithAIPwa
    dsimp only
    rw [if_neg ht, hp]
    rfl

def demoParse : String → Option (List AiItem) := fun s =>
  if s = "[]" then some [] else none

def demoRawArticles : List RawArticle :=
  [{ title := some "Local Dog Rescue Brings Community Hope",
     link := "https://x/1", source_id := some "demo", source := none,
     description := none, content := none, pubDate := none,
     publishedAt := none, image_url := none }]

/-- Witness for C4: a malformed response falls back to the heuristic
result, and an empty JSON array yields the empty result set. -/
theorem classifier_fallback_witness :
    demoParse "not json" = none ∧
    filterAndEnrichArticlesWithAI demoParse "t" demoRawArticles
      (.responded "not json") = basicKeywordFilter "t" demoRawArticles ∧
    jsTrim "[]" ≠ "" ∧ demoParse "[]" = some [] ∧
    filterAndEnrichArticlesWithAI demoParse "t" demoRawArticles
      (.responded "[]") = [] := by
  have hc := classifier_fallback demoParse "t" demoRawArticles
  exact ⟨by decide, hc.2.2.1 "not json" (by decide), by decide, by decide,
    hc.2.2.2.1 "[]" (by decide) (by decide)⟩

/-! ## C5: priority-with-fallback threshold skip -/

theorem okTotal_cons (p : ProviderRun) (L : List ProviderRun) :
    okTotal (p :: L) =
      (match p.outcome with
       | .fetched l => l.length
       | .failed _ => 0) + okTotal L := by
  unfold okTotal
  rw [List.map_cons, List.sum_cons]

theorem runGo_reached (L1 : List ProviderRun) :
    ∀ (L2 : List ProviderRun) (acc : List RawArticle) (inv : List String),
    acc.length < minArticleThreshold →
    minArticleThreshold ≤ acc.length + okTotal L1 →
    ∀ x ∈ (runProvidersGo "conservative" (L1 ++ L2) acc inv).2,
      x ∈ inv ∨ x ∈ L1.map (fun p => p.name) := by
  induction L1 with
  | nil =>
    intro L2 acc inv hlt hge
    unfold okTotal at hge
    simp only [List.map_nil, List.sum_nil] at hge
    omega
  | cons p L1 ih =>
    intro L2 acc inv hlt hge x hx
    rw [List.cons_append] at hx
    rw [okTotal_cons] at hge
    cases ho : p.outcome with
    | failed e =>
      rw [ho] at hge
      dsimp only at hge
      simp only [runProvidersGo, ho] at hx
      rcases ih L2 acc (inv ++ [p.name]) hlt (by omega) x hx with h | h
      · rcases List.mem_append.mp h with h | h
        · exact Or.inl h
        · rw [List.mem_singleton] at h
          exact Or.inr (by simp [h])
      · exact Or.inr
          (by rw [List.map_cons]; exact List.mem_cons_of_mem _ h)
    | fetched arts =>
      rw [ho] at hge
      dsimp only at hge
      by_cases hth : minArticleThreshold ≤ (acc ++ arts).length
      · simp only [runProvidersGo, ho] at hx
        rw [if_pos (show True ∧ minArticleThreshold ≤ (acc ++ arts).length
          from ⟨trivial, hth⟩)] at hx
        rcases List.mem_append.mp hx with h | h
        · exact Or.inl h
        · rw [List.mem_singleton] at h
          exact Or.inr (by simp [h])
      · simp only [runProvidersGo, ho] at hx
        rw [if_neg (fun hand :
          True ∧ minArticleThreshold ≤ (acc ++ arts).length =>
            hth hand.2)] at hx
        have hlt' : (acc ++ arts).length < minArticleThreshold := by
          omega
        have hge' : minArticleThreshold ≤ (acc ++ arts).length + okTotal L1 := by
          rw [List.length_append]
          omega
        rcases ih L2 (acc ++ arts) (inv ++ [p.name]) hlt' hge' x hx with h | h
        · rcases List.mem_append.mp h with h | h
          · exact Or.inl h
          · rw [List.mem_singleton] at h
            exact Or.inr (by simp [h])
        · exact Or.inr
            (by rw [List.map_cons]; exact List.mem_cons_of_mem _ h)

/-- C5.  In conservative (priority-with-fallback) mode the orchestrator
attempts the enabled providers in ascending priority order, and once the
running article total after some prefix of providers reaches the minimum
threshold of 40, no later (lower-priority) provider is ever invoked. -/
theorem fetchProviders_priority_fallback (ps : List ProviderRun) :
    (activeProviders ps).Pairwise (fun a b => a.priority ≤ b.priority) ∧
    (∀ (L1 L2 : List ProviderRun) (q : ProviderRun),
      activeProviders ps = L1 ++ L2 →
      minArticleThreshold ≤ okTotal L1 →
      q ∈ L2 → q.name ∉ L1.map (fun p => p.name) →
      q.name ∉ (fetchArticlesFromProviders "conservative" ps).2) := by
  constructor
  · have htot : ∀ a b : ProviderRun, provLe a b = false → provLe b a = true := by
      intro a b h
      simp only [provLe, decide_eq_false_iff_not, not_le] at h
      simp only [provLe, decide_eq_true_eq]
      omega
    have htrans : ∀ a b c : ProviderRun, provLe a b = true →
        provLe b c = true → provLe a c = true := by
      intro a b c h1 h2
      simp only [provLe, decide_eq_true_eq] at h1 h2 ⊢
      omega
    have hp := sortLe_pairwise htot htrans (ps.filter (fun p => p.enabled))
    exact hp.imp (fun h => by
      simpa [provLe, decide_eq_true_eq] using h)
  · intro L1 L2 q heq hth hq hnotin hmem
    unfold fetchArticlesFromProviders at hmem
    simp only at hmem
    rw [heq] at hmem
    have hres := runGo_reached L1 L2 [] []
      (by simp [minArticleThreshold]) (by simpa using hth) q.name hmem
    rcases hres with h | h
    · exact absurd h (List.not_mem_nil _)
    · exact hnotin h

def demoRaw : RawArticle :=
  { title := some "Community Garden Brings Neighbors Together",
    link := "https://x/2", source_id := some "demo", source := none,
    description := none, content := none, pubDate := none,
    publishedAt := none, image_url := none }

def demoProvider1 : ProviderRun :=
  { name := "newsapi", enabled := true, priority := 1,
    outcome := .fetched (List.replicate 45 demoRaw) }

def demoProvider2 : ProviderRun :=
  { name := "newsdata", enabled := true, priority := 2,
    outcome := .fetched [demoRaw] }

/-- Witness for C5, end-to-end scenario D: the primary provider returns
45 articles (threshold 40), so the fallback provider is never invoked. -/
theorem fetchProviders_priority_fallback_witness :
    activeProviders [demoProvider1, demoProvider2] =
      [demoProvider1] ++ [demoProvider2] ∧
    minArticleThreshold ≤ okTotal [demoProvider1] ∧
    demoProvider2 ∈ [demoProvider2] ∧
    "newsdata" ∉ ([demoProvider1].map (fun p => p.name)) ∧
    "newsdata" ∉
      (fetchArticlesFromProviders "conservative"
        [demoProvider1, demoProvider2]).2 := by
  refine ⟨by decide, by decide, by decide, by decide, ?_⟩
  exact (fetchProviders_priority_fallback [demoProvider1, demoProvider2]).2
    [demoProvider1] [demoProvider2] demoProvider2 (by decide) (by decide)
    (by decide) (by decide)

/-! ## C10: getUserBookmarks takes the first (earliest) ids -/

theorem chunksAux_flatten {α : Type} (n : Nat) (hn : 1 ≤ n) :
    ∀ (fuel : Nat) (l : List α), l.length ≤ fuel →
    (chunksAux n fuel l).flatten = l := by
  intro fuel
  induction fuel with
  | zero =>
    intro l hl
    have hl0 : l = [] := List.length_eq_zero.mp (Nat.le_zero.mp hl)
    subst hl0
    rfl
  | succ f ih =>
    intro l hl
    cases l with
    | nil => rfl
    | cons a l' =>
      show ((a :: l').take n :: chunksAux n f ((a :: l').drop n)).flatten =
        a :: l'
      rw [List.flatten_cons]
      rw [ih ((a :: l').drop n) (by
        rw [List.length_drop]
        simp only [List.length_cons] at hl ⊢
        omega)]
      exact List.take_append_drop n (a :: l')

theorem chunkList_flatten {α : Type} (n : Nat) (hn : 1 ≤ n) (l : List α) :
    (chunkList n l).flatten = l :=
  chunksAux_flatten n hn l.length l (le_refl _)

theorem flatten_map_filterMap {α β : Type} (f : α → Option β) :
    ∀ (L : List (List α)),
    (L.map (fun ch => ch.filterMap f)).flatten = L.flatten.filterMap f := by
  intro L
  induction L with
  | nil => rfl
  | cons ch L ih =>
    rw [List.map_cons, List.flatten_cons, List.flatten_cons,
      List.filterMap_append, ih]

theorem findIdx?_isSome_of_mem {b : String} {l : List String} (h : b ∈ l) :
    ∃ i, l.findIdx? (fun y => y = b) = some i := by
  induction l with
  | nil => simp at h
  | cons a l ih =>
    by_cases hab : a = b
    · exact ⟨0, by simp [List.findIdx?_cons, hab]⟩
    · rcases List.mem_cons.mp h with h | h
      · exact absurd h.symm hab
      · obtain ⟨i, hi⟩ := ih h
        exact ⟨i + 1, by simp [List.findIdx?_cons, hab, hi]⟩

theorem jsIndexOf_cons_self (a : String) (l : List String) :
    jsIndexOf (a :: l) a = 0 := by
  simp [jsIndexOf, List.findIdx?_cons]

theorem jsIndexOf_cons_of_mem {a b : String} {l : List String}
    (hne : b ≠ a) (h : b ∈ l) :
    jsIndexOf (a :: l) b = jsIndexOf l b + 1 := by
  obtain ⟨i, hi⟩ := findIdx?_isSome_of_mem h
  unfold jsIndexOf
  rw [List.findIdx?_cons]
  rw [decide_eq_false (fun he : a = b => hne he.symm)]
  rw [List.findIdx?_succ, hi]
  simp

theorem jsIndexOf_nonneg_of_mem {b : String} {l : List String} (h : b ∈ l) :
    0 ≤ jsIndexOf l b := by
  obtain ⟨i, hi⟩ := findIdx?_isSome_of_mem h
  unfold jsIndexOf
  rw [hi]
  exact Int.natCast_nonneg i

theorem pairwise_jsIndexOf {L : List String} (hnd : L.Nodup) :
    L.Pairwise (fun i j => jsIndexOf L i < jsIndexOf L j) := by
  induction L with
  | nil => exact List.Pairwise.nil
  | cons a l ih =>
    rw [List.nodup_cons] at hnd
    rw [List.pairwise_cons]
    constructor
    · intro j hj
      have hja : j ≠ a := fun he => hnd.1 (he ▸ hj)
      rw [jsIndexOf_cons_self, jsIndexOf_cons_of_mem hja hj]
      have := jsIndexOf_nonneg_of_mem hj
      omega
    · apply (ih hnd.2).imp_of_mem
      intro x y hx hy hxy
      have hxa : x ≠ a := fun he => hnd.1 (he ▸ hx)
      have hya : y ≠ a := fun he => hnd.1 (he ▸ hy)
      rw [jsIndexOf_cons_of_mem hxa hx, jsIndexOf_cons_of_mem hya hy]
      omega

def mkDemoDoc (i : String) : StoredArticle :=
  { uniqueId := i, title := "t", summary := "s", category := "ANIMALS",
    link := i, source := "demo", publishedOriginal := none, id := i,
    batchId := "b", publishedAt := 0, expiresAt := 1, isActive := true,
    updatedAt := 0, views := 0, saves := 0, shares := 0,
    sharesByPlatform := SharesMap.zero, trendingScore := 0,
    lastViewedAt := none, lastSharedAt := none }

def demoBookmarkStore : ArticleStore :=
  [("a", mkDemoDoc "a"), ("b", mkDemoDoc "b"), ("c", mkDemoDoc "c")]

def demoBookmarkIds : List String :=
  bookmarkInsert (bookmarkInsert (bookmarkInsert [] "a") "b") "c"

/-- Counterexample to C10 as stated: with bookmarks inserted in order a,
b, c (arrayUnion appends, so c is the most recent) and limit 2, the code
slices the FIRST two ids and returns the articles for a and b — not the
most recently bookmarked two (b and c). -/
theorem getUserBookmarks_recent_counterexample :
    demoBookmarkIds = ["a", "b", "c"] ∧
    getUserBookmarks demoBookmarkStore demoBookmarkIds 2 =
      [mkDemoDoc "a", mkDemoDoc "b"] ∧
    getUserBookmarks demoBookmarkStore demoBookmarkIds 2 ≠
      [mkDemoDoc "b", mkDemoDoc "c"] :=
  ⟨by decide, by decide, by decide⟩

/-- C10 amended.  When the user's bookmark list holds more than limit
ids, getUserBookmarks returns the articles of the FIRST
min(limit, bookmarkLimit) stored ids — the earliest bookmarked entries —
presented preserving bookmark insertion order. -/
theorem getUserBookmarks_earliest (store : ArticleStore)
    (ids : List String) (lim : Nat) (hnd : ids.Nodup)
    (hfull : ∀ i ∈ ids, ∃ d, lookupA i store = some d ∧ d.id = i) :
    getUserBookmarks store ids lim =
      (ids.take (min lim bookmarkLimit)).filterMap
        (fun i => lookupA i store) := by
  unfold getUserBookmarks
  by_cases hlen : ids.length = 0
  · rw [if_pos hlen]
    rw [List.length_eq_zero.mp hlen]
    simp
  · rw [if_neg hlen]
    dsimp only
    have hflat : ((chunkList 10 (ids.take (min lim bookmarkLimit))).map
        (fun ch => ch.filterMap (fun i => lookupA i store))).flatten =
        (ids.take (min lim bookmarkLimit)).filterMap
          (fun i => lookupA i store) := by
      rw [flatten_map_filterMap]
      rw [chunkList_flatten 10 (by omega)]
    rw [hflat]
    apply sortLe_eq_self
    have hndl : (ids.take (min lim bookmarkLimit)).Nodup :=
      (List.take_sublist _ _).nodup hnd
    have hpw := pairwise_jsIndexOf hndl
    rw [List.pairwise_filterMap]
    apply hpw.imp_of_mem
    intro x y hx hy hxy
    intro d hd d' hd'
    obtain ⟨dx, hdx, hdxid⟩ := hfull x (List.mem_of_mem_take hx)
    obtain ⟨dy, hdy, hdyid⟩ := hfull y (List.mem_of_mem_take hy)
    rw [Option.mem_def] at hd hd'
    rw [hdx] at hd
    rw [hdy] at hd'
    cases Option.some.inj hd
    cases Option.some.inj hd'
    rw [decide_eq_true_eq]
    rw [hdxid, hdyid]
    omega

/-- Witness for the amended C10 at the concrete three-bookmark store. -/
theorem getUserBookmarks_earliest_witness :
    demoBookmarkIds.Nodup ∧
    getUserBookmarks demoBookmarkStore demoBookmarkIds 2 =
      (demoBookmarkIds.take (min 2 bookmarkLimit)).filterMap
        (fun i => lookupA i demoBookmarkStore) := by
  refine ⟨by decide, ?_⟩
  apply getUserBookmarks_earliest demoBookmarkStore demoBookmarkIds 2
    (by decide)
  intro i hi
  rw [show demoBookmarkIds = ["a", "b", "c"] from by decide] at hi
  rcases List.mem_cons.mp hi with rfl | hi
  · exact ⟨mkDemoDoc "a", rfl, rfl⟩
  rcases List.mem_cons.mp hi with rfl | hi
  · exact ⟨mkDemoDoc "b", rfl, rfl⟩
  rcases List.mem_cons.mp hi with rfl | hi
  · exact ⟨mkDemoDoc "c", rfl, rfl⟩
  exact absurd hi (List.not_mem_nil i)

end GoodNews
